import Mathlib

/-!
Shallow embedding of the dependency-manifest core (`src/versions.rs`):
the manifest data model, semver validation, circular-dependency
detection and topological build-order computation.

The Rust `HashMap<String, RepoVersion>` is modelled as an association
list; the list order stands for the map's (unspecified) iteration
order, so theorems quantified over manifests cover every iteration
order.  `HashSet` values are modelled as lists queried by membership
(`hinsert` / `hremove` mirror `insert` / `remove`).  The recursive
traversals `has_circular_dependency` and `dfs` take an explicit fuel
argument; `fuelBound` is proved sufficient, so the `none`
(out-of-fuel) outcome never occurs on the entry points.
-/

namespace BlvmVersions

/-- `RepoVersion` record from `versions.rs`. -/
structure RepoVersion where
  version : String
  git_tag : String
  git_commit : Option String
  requires : List String
  binaries : List String
deriving DecidableEq, Repr

/-- `VersionsManifest` from `versions.rs`; `versions` is the
`HashMap<String, RepoVersion>` as an association list. -/
structure VersionsManifest where
  versions : List (String × RepoVersion)
  metadata : Option (List (String × String))
deriving DecidableEq, Repr

/-- `ValidationResult` enum from `versions.rs`. -/
inductive ValidationResult where
  | Valid : ValidationResult
  | ValidWithWarnings : List String → ValidationResult
  | Invalid : List String → List String → ValidationResult
deriving DecidableEq, Repr

/-- The name portion of a dependency specifier:
`dep.split('=').next().unwrap_or(dep)`, i.e. the text before the
first `'='` (the whole string when there is none). -/
def depName (dep : String) : String :=
  String.mk (dep.toList.takeWhile (fun c => c ≠ '='))

/-- `self.versions.get(repo)`: first association-list entry with the
given key. -/
def getRepo (m : VersionsManifest) (name : String) : Option RepoVersion :=
  (m.versions.find? (fun p => p.1 == name)).map (fun p => p.2)

/-- `self.versions.contains_key(name)`. -/
def containsKey (m : VersionsManifest) (name : String) : Bool :=
  (getRepo m name).isSome

/-- `self.versions.keys()` in iteration order. -/
def keys (m : VersionsManifest) : List String :=
  m.versions.map (fun p => p.1)

/-- `HashSet::insert`: add the element unless already present. -/
def hinsert (s : List String) (x : String) : List String :=
  if x ∈ s then s else s ++ [x]

/-- `HashSet::remove`: drop the element (sets hold no duplicates). -/
def hremove (s : List String) (x : String) : List String :=
  s.filter (fun y => y != x)

/-- `Vec<String>::join(sep)`. -/
def joinSep (sep : String) : List String → String
  | [] => ""
  | [x] => x
  | x :: y :: rest => x ++ sep ++ joinSep sep (y :: rest)

/-- Rust `str::parse::<u32>()` on a character list: optional leading
`'+'`, then a non-empty run of ASCII digits whose value fits in 32
bits. -/
def parseU32c (cs : List Char) : Option Nat :=
  let t := match cs with
    | '+' :: rest => rest
    | _ => cs
  if t.isEmpty then none
  else if t.all (fun c => c.isDigit) then
    let n := t.foldl (fun acc c => acc * 10 + (c.toNat - 48)) 0
    if n < 4294967296 then some n else none
  else none

/-- `version.split('.')` as a list of character lists (keeps empty
segments, exactly like Rust's `split`). -/
def splitChar (sep : Char) : List Char → List (List Char)
  | [] => [[]]
  | c :: rest =>
    let r := splitChar sep rest
    if c = sep then [] :: r
    else
      match r with
      | [] => [[c]]
      | h :: t => (c :: h) :: t

/-- `is_valid_semver` from `versions.rs`: exactly three
dot-separated parts, each parsing as a `u32`. -/
def is_valid_semver (version : String) : Bool :=
  let parts := splitChar '.' version.toList
  if parts.length ≠ 3 then false
  else parts.all (fun part => (parseU32c part).isSome)

/-- All names a traversal can ever be called on: the manifest keys
together with every dependency name appearing in a `requires` list. -/
def allNames (m : VersionsManifest) : List String :=
  keys m ++ (m.versions.map (fun p => p.2.requires.map depName)).flatten

/-- Fuel sufficient for every traversal of the manifest. -/
def fuelBound (m : VersionsManifest) : Nat :=
  (allNames m).length + 1

/-- The loop body of `has_circular_dependency` over a `requires`
list, abstracted over the recursive call `step`: stop at the first
dependency reporting a cycle, thread `visited` / `path` through. -/
def hcdLoop (step : String → List String → List String →
    Option (Bool × List String × List String)) :
    List String → List String → List String →
    Option (Bool × List String × List String)
  | [], v, p => some (false, v, p)
  | dep :: rest, v, p =>
    match step (depName dep) v p with
    | none => none
    | some (true, v', p') => some (true, v', p')
    | some (false, v', p') => hcdLoop step rest v' p'

/-- `has_circular_dependency(repo, visited, path)` from
`versions.rs`, with fuel.  Returns the flag together with the final
`visited` and `path`. -/
def has_circular_dependency (m : VersionsManifest) :
    Nat → String → List String → List String →
    Option (Bool × List String × List String)
  | 0, _, _, _ => none
  | fuel + 1, repo, visited, path =>
    if repo ∈ path then some (true, visited, path ++ [repo])
    else if repo ∈ visited then some (false, visited, path)
    else
      match getRepo m repo with
      | some vi =>
        match hcdLoop (has_circular_dependency m fuel) vi.requires
            (hinsert visited repo) (path ++ [repo]) with
        | none => none
        | some (true, v', p') => some (true, v', p')
        | some (false, v', p') => some (false, v', p'.dropLast)
      | none => some (false, hinsert visited repo, (path ++ [repo]).dropLast)

/-- The per-start loop of `detect_circular_dependencies`: each key
begins a fresh walk with empty `visited` and `path`. -/
def detectAux (m : VersionsManifest) : List String → Option (Option String)
  | [] => some none
  | repo :: rest =>
    match has_circular_dependency m (fuelBound m) repo [] [] with
    | none => none
    | some (true, _, p) => some (some (joinSep " -> " p))
    | some (false, _, _) => detectAux m rest

/-- `detect_circular_dependencies` from `versions.rs`.  The outer
`Option` is fuel adequacy (never `none`, proved below); the inner one
is the function's own result. -/
def detect_circular_dependencies (m : VersionsManifest) : Option (Option String) :=
  detectAux m (keys m)

/-- Decidable equality for `Except`, used to evaluate concrete runs. -/
instance instDecEqExcept {ε α : Type} [DecidableEq ε] [DecidableEq α] :
    DecidableEq (Except ε α)
  | Except.error a, Except.error b =>
    if h : a = b then Decidable.isTrue (by rw [h])
    else Decidable.isFalse (fun hh => by cases hh; exact h rfl)
  | Except.error _, Except.ok _ => Decidable.isFalse (fun hh => by cases hh)
  | Except.ok _, Except.error _ => Decidable.isFalse (fun hh => by cases hh)
  | Except.ok a, Except.ok b =>
    if h : a = b then Decidable.isTrue (by rw [h])
    else Decidable.isFalse (fun hh => by cases hh; exact h rfl)

/-- Traversal state of `build_order` / `dfs`: the `visited` and
`visiting` sets and the `result` vector. -/
structure DfsSt where
  visited : List String
  visiting : List String
  result : List String
deriving DecidableEq, Repr

/-- The loop body of `dfs` over a `requires` list, abstracted over
the recursive call `step`: `?`-propagate the first error. -/
def dfsLoop (step : String → DfsSt → Option (Except String DfsSt)) :
    List String → DfsSt → Option (Except String DfsSt)
  | [], st => some (Except.ok st)
  | dep :: rest, st =>
    match step (depName dep) st with
    | none => none
    | some (Except.error e) => some (Except.error e)
    | some (Except.ok st') => dfsLoop step rest st'

/-- `dfs(repo, visited, visiting, result)` from `versions.rs`, with
fuel. -/
def dfs (m : VersionsManifest) : Nat → String → DfsSt → Option (Except String DfsSt)
  | 0, _, _ => none
  | fuel + 1, repo, st =>
    if repo ∈ st.visiting then
      some (Except.error ("Circular dependency detected involving " ++ repo))
    else if repo ∈ st.visited then
      some (Except.ok st)
    else
      match getRepo m repo with
      | some vi =>
        match dfsLoop (dfs m fuel) vi.requires
            ⟨st.visited, hinsert st.visiting repo, st.result⟩ with
        | none => none
        | some (Except.error e) => some (Except.error e)
        | some (Except.ok st2) =>
          some (Except.ok ⟨hinsert st2.visited repo, hremove st2.visiting repo,
            st2.result ++ [repo]⟩)
      | none =>
        some (Except.ok ⟨hinsert st.visited repo, hremove (hinsert st.visiting repo) repo,
          st.result ++ [repo]⟩)

/-- The key loop of `build_order`: start a `dfs` at every not-yet
visited key, propagating errors. -/
def buildOrderAux (m : VersionsManifest) : List String → DfsSt →
    Option (Except String (List String))
  | [], st => some (Except.ok st.result)
  | repo :: rest, st =>
    if repo ∈ st.visited then buildOrderAux m rest st
    else
      match dfs m (fuelBound m) repo st with
      | none => none
      | some (Except.error e) => some (Except.error e)
      | some (Except.ok st') => buildOrderAux m rest st'

/-- `build_order` from `versions.rs`: topological sort of the keys. -/
def build_order (m : VersionsManifest) : Option (Except String (List String)) :=
  buildOrderAux m (keys m) ⟨[], [], []⟩

/-- The errors `validate` accumulates for one `versions` entry: the
semver check, then one error per missing dependency, in order. -/
def entryErrors (m : VersionsManifest) (repo : String) (vi : RepoVersion) : List String :=
  (if is_valid_semver vi.version then []
   else ["Repository '" ++ repo ++ "' has invalid version '" ++ vi.version ++
     "' (must be X.Y.Z)"]) ++
  vi.requires.filterMap (fun dep =>
    if containsKey m (depName dep) then none
    else some ("Repository '" ++ repo ++ "' requires '" ++ depName dep ++
      "' which is not defined"))

/-- The full error list `validate` accumulates: the per-entry errors
in iteration order, then the circular-dependency error if the
detector (whose answer is `circ`) reported one. -/
def validateErrors (m : VersionsManifest) (circ : Option String) : List String :=
  (m.versions.map (fun p => entryErrors m p.1 p.2)).flatten ++
    (match circ with
     | some c => ["Circular dependency detected: " ++ c]
     | none => [])

/-- `validate` from `versions.rs`.  The outer `Option` is fuel
adequacy of the embedded cycle detection (never `none`, proved
below). -/
def validate (m : VersionsManifest) : Option ValidationResult :=
  match detect_circular_dependencies m with
  | none => none
  | some circ =>
    let errors := validateErrors m circ
    let warnings : List String := []
    some (if errors.isEmpty && warnings.isEmpty then ValidationResult.Valid
      else if errors.isEmpty then ValidationResult.ValidWithWarnings warnings
      else ValidationResult.Invalid errors warnings)

/-! ### The dependency graph: edges, chains, cycles -/

/-- The directed edge relation of the manifest: `a` is a key of
`versions` and one of its `requires` entries has name portion `b`. -/
def Edge (m : VersionsManifest) (a b : String) : Prop :=
  ∃ vi, getRepo m a = some vi ∧ ∃ d, d ∈ vi.requires ∧ depName d = b

/-- Consecutive elements of the list are related by `Edge`. -/
def EChain (m : VersionsManifest) : List String → Prop
  | [] => True
  | [_] => True
  | a :: b :: t => Edge m a b ∧ EChain m (b :: t)

/-- `x :: w` lists the nodes of a directed cycle: following the
`requires` edges through `w` returns to `x`. -/
def IsCycle (m : VersionsManifest) (x : String) (w : List String) : Prop :=
  EChain m (x :: (w ++ [x]))

/-- The `requires` edge graph has a directed cycle. -/
def HasCycle (m : VersionsManifest) : Prop :=
  ∃ x w, IsCycle m x w

instance EdgeDec (m : VersionsManifest) (a b : String) : Decidable (Edge m a b) :=
  match hg : getRepo m a with
  | none => Decidable.isFalse (fun ⟨_, h1, _⟩ => by rw [hg] at h1; cases h1)
  | some vi =>
    if h : ∃ d, d ∈ vi.requires ∧ depName d = b then
      Decidable.isTrue ⟨vi, hg, h⟩
    else
      Decidable.isFalse (fun ⟨vi', h1, h2⟩ => by
        rw [hg] at h1; cases h1; exact h h2)

instance EChainDec (m : VersionsManifest) : (l : List String) → Decidable (EChain m l)
  | [] => Decidable.isTrue trivial
  | [_] => Decidable.isTrue trivial
  | a :: b :: t => @instDecidableAnd _ _ (EdgeDec m a b) (EChainDec m (b :: t))

instance IsCycleDec (m : VersionsManifest) (x : String) (w : List String) :
    Decidable (IsCycle m x w) :=
  EChainDec m (x :: (w ++ [x]))

/-- `y` is the name portion of some `requires` entry of the manifest. -/
def DepTarget (m : VersionsManifest) (y : String) : Prop :=
  ∃ p, p ∈ m.versions ∧ ∃ d, d ∈ p.2.requires ∧ depName d = y

/-! ### Helper lemmas about lookups and names -/

theorem getRepo_mem {m : VersionsManifest} {repo : String} {vi : RepoVersion}
    (h : getRepo m repo = some vi) :
    ∃ p, p ∈ m.versions ∧ p.1 = repo ∧ p.2 = vi := by
  unfold getRepo at h
  cases hf : m.versions.find? (fun p => p.1 == repo) with
  | none => rw [hf] at h; cases h
  | some pr =>
    rw [hf] at h
    simp only [Option.map_some'] at h
    have hm := List.mem_of_find?_eq_some hf
    have hp := List.find?_some hf
    exact ⟨pr, hm, by simpa using hp, by simpa using h⟩

theorem getRepo_mem_keys {m : VersionsManifest} {repo : String} {vi : RepoVersion}
    (h : getRepo m repo = some vi) : repo ∈ keys m := by
  obtain ⟨p, hp, h1, _⟩ := getRepo_mem h
  exact h1 ▸ List.mem_map_of_mem (fun q => q.1) hp

theorem mem_keys_getRepo {m : VersionsManifest} {repo : String}
    (h : repo ∈ keys m) : ∃ vi, getRepo m repo = some vi := by
  unfold keys at h
  obtain ⟨p, hp, h1⟩ := List.mem_map.mp h
  have : (m.versions.find? (fun q => q.1 == repo)).isSome := by
    rw [List.find?_isSome]
    exact ⟨p, hp, by simp [h1]⟩
  obtain ⟨pr, hpr⟩ := Option.isSome_iff_exists.mp this
  exact ⟨pr.2, by unfold getRepo; rw [hpr]; rfl⟩

theorem key_mem_allNames {m : VersionsManifest} {repo : String}
    (h : repo ∈ keys m) : repo ∈ allNames m := by
  unfold allNames
  exact List.mem_append_left _ h

theorem depTarget_of {m : VersionsManifest} {repo : String} {vi : RepoVersion} {d : String}
    (h : getRepo m repo = some vi) (hd : d ∈ vi.requires) : DepTarget m (depName d) := by
  obtain ⟨p, hp, _, h2⟩ := getRepo_mem h
  exact ⟨p, hp, d, h2 ▸ hd, rfl⟩

theorem depTarget_mem_allNames {m : VersionsManifest} {y : String}
    (h : DepTarget m y) : y ∈ allNames m := by
  obtain ⟨p, hp, d, hd, hy⟩ := h
  unfold allNames
  refine List.mem_append_right _ ?_
  rw [List.mem_flatten]
  exact ⟨p.2.requires.map depName, List.mem_map_of_mem _ hp, hy ▸ List.mem_map_of_mem _ hd⟩

/-! ### Helper lemmas about the set operations -/

theorem hinsert_not_mem {s : List String} {x : String} (h : x ∉ s) :
    hinsert s x = s ++ [x] := by
  unfold hinsert; rw [if_neg h]

theorem hremove_not_mem {s : List String} {x : String} (h : x ∉ s) :
    hremove s x = s := by
  unfold hremove
  refine List.filter_eq_self.mpr (fun a ha => ?_)
  simp only [bne_iff_ne, ne_eq, decide_eq_true_eq]
  exact fun he => h (he ▸ ha)

theorem hremove_append_self {s : List String} {x : String} (h : x ∉ s) :
    hremove (s ++ [x]) x = s := by
  unfold hremove
  rw [List.filter_append]
  have h1 : List.filter (fun y => y != x) [x] = [] := by simp
  rw [h1, List.append_nil]
  exact hremove_not_mem h

/-! ### First occurrence index -/

/-- Index of the first occurrence of `x` in `l` (length if absent). -/
def pos : List String → String → Nat
  | [], _ => 0
  | y :: t, x => if y = x then 0 else pos t x + 1

theorem pos_append_left {l : List String} {x : String} (h : x ∈ l) (t : List String) :
    pos (l ++ t) x = pos l x := by
  induction l with
  | nil => cases h
  | cons y l ih =>
    by_cases hy : y = x
    · simp [pos, hy]
    · have : x ∈ l := by
        cases List.mem_cons.mp h with
        | inl h1 => exact absurd h1.symm hy
        | inr h2 => exact h2
      simp [pos, hy, ih this]

theorem pos_append_right {l : List String} {x : String} (h : x ∉ l) (t : List String) :
    pos (l ++ t) x = l.length + pos t x := by
  induction l with
  | nil => simp [pos]
  | cons y l ih =>
    have hy : y ≠ x := fun he => h (he ▸ List.mem_cons_self y l)
    have hx : x ∉ l := fun hx => h (List.mem_cons_of_mem _ hx)
    simp [pos, hy, ih hx]
    omega

theorem pos_append_self {l : List String} {x : String} (h : x ∉ l) :
    pos (l ++ [x]) x = l.length := by
  rw [pos_append_right h]
  simp [pos]

theorem pos_lt_length {l : List String} {x : String} (h : x ∈ l) :
    pos l x < l.length := by
  induction l with
  | nil => cases h
  | cons y l ih =>
    by_cases hy : y = x
    · simp [pos, hy]
    · have : x ∈ l := by
        cases List.mem_cons.mp h with
        | inl h1 => exact absurd h1.symm hy
        | inr h2 => exact h2
      simp [pos, hy]
      exact ih this

/-! ### Chain lemmas -/

theorem echain_tail {m : VersionsManifest} {a : String} {l : List String}
    (h : EChain m (a :: l)) : EChain m l := by
  cases l with
  | nil => trivial
  | cons b t => exact h.2

theorem echain_suffix {m : VersionsManifest} :
    ∀ (u l : List String), EChain m (u ++ l) → EChain m l := by
  intro u
  induction u with
  | nil => intro l h; exact h
  | cons a u ih => intro l h; exact ih l (echain_tail h)

theorem echain_snoc {m : VersionsManifest} {b : String} :
    ∀ {l : List String}, EChain m l →
      (∀ z, l.getLast? = some z → Edge m z b) → EChain m (l ++ [b])
  | [], _, _ => trivial
  | [a], _, hz => ⟨hz a rfl, trivial⟩
  | a :: c :: t, h, hz => by
    refine ⟨h.1, ?_⟩
    exact echain_snoc h.2 (fun z h2 => hz z (by rw [List.getLast?_cons_cons]; exact h2))

/-- A node already on the chain closed by one more edge yields a cycle. -/
theorem cycle_of_mem_chain {m : VersionsManifest} {repo : String} {vis : List String}
    (hm : repo ∈ vis) (hc : EChain m (vis ++ [repo])) : ∃ w, IsCycle m repo w := by
  obtain ⟨u, t, ht⟩ := List.append_of_mem hm
  subst ht
  refine ⟨t, ?_⟩
  have : EChain m ((repo :: t) ++ [repo]) := by
    have h2 : u ++ repo :: t ++ [repo] = u ++ ((repo :: t) ++ [repo]) := by simp
    exact echain_suffix u _ (by rw [← h2]; exact hc)
  simpa [IsCycle] using this

/-! ### Unfolding equations of the fueled traversals -/

theorem hcd_zero (m : VersionsManifest) (repo : String) (v p : List String) :
    has_circular_dependency m 0 repo v p = none := rfl

theorem hcd_succ (m : VersionsManifest) (fuel : Nat) (repo : String) (v p : List String) :
    has_circular_dependency m (fuel + 1) repo v p =
      (if repo ∈ p then some (true, v, p ++ [repo])
       else if repo ∈ v then some (false, v, p)
       else
        match getRepo m repo with
        | some vi =>
          match hcdLoop (has_circular_dependency m fuel) vi.requires
              (hinsert v repo) (p ++ [repo]) with
          | none => none
          | some (true, v', p') => some (true, v', p')
          | some (false, v', p') => some (false, v', p'.dropLast)
        | none => some (false, hinsert v repo, (p ++ [repo]).dropLast)) := rfl

theorem dfs_zero (m : VersionsManifest) (repo : String) (st : DfsSt) :
    dfs m 0 repo st = none := rfl

theorem dfs_succ (m : VersionsManifest) (fuel : Nat) (repo : String) (st : DfsSt) :
    dfs m (fuel + 1) repo st =
      (if repo ∈ st.visiting then
        some (Except.error ("Circular dependency detected involving " ++ repo))
       else if repo ∈ st.visited then
        some (Except.ok st)
       else
        match getRepo m repo with
        | some vi =>
          match dfsLoop (dfs m fuel) vi.requires
              ⟨st.visited, hinsert st.visiting repo, st.result⟩ with
          | none => none
          | some (Except.error e) => some (Except.error e)
          | some (Except.ok st2) =>
            some (Except.ok ⟨hinsert st2.visited repo, hremove st2.visiting repo,
              st2.result ++ [repo]⟩)
        | none =>
          some (Except.ok ⟨hinsert st.visited repo, hremove (hinsert st.visiting repo) repo,
            st.result ++ [repo]⟩)) := rfl

/-! ### Restoration of the recursion stack -/

theorem dfsLoop_visiting_eq {step : String → DfsSt → Option (Except String DfsSt)}
    (H : ∀ r st st', step r st = some (Except.ok st') → st'.visiting = st.visiting) :
    ∀ deps st st', dfsLoop step deps st = some (Except.ok st') → st'.visiting = st.visiting := by
  intro deps
  induction deps with
  | nil =>
    intro st st' h
    simp only [dfsLoop] at h
    cases h
    rfl
  | cons d rest ih =>
    intro st st' h
    simp only [dfsLoop] at h
    cases hs : step (depName d) st with
    | none => rw [hs] at h; cases h
    | some r =>
      rw [hs] at h
      cases r with
      | error e => cases h
      | ok stm => rw [ih stm st' h, H _ _ _ hs]

/-- An `Ok`-returning `dfs` call restores `visiting` exactly. -/
theorem dfs_visiting_eq (m : VersionsManifest) :
    ∀ fuel repo st st', dfs m fuel repo st = some (Except.ok st') →
      st'.visiting = st.visiting := by
  intro fuel
  induction fuel with
  | zero => intro repo st st' h; rw [dfs_zero] at h; cases h
  | succ n ih =>
    intro repo st st' h
    rw [dfs_succ] at h
    by_cases h1 : repo ∈ st.visiting
    · rw [if_pos h1] at h; cases h
    · rw [if_neg h1] at h
      by_cases h2 : repo ∈ st.visited
      · rw [if_pos h2] at h; cases h; rfl
      · rw [if_neg h2] at h
        cases hg : getRepo m repo with
        | none =>
          rw [hg] at h
          cases h
          show hremove (hinsert st.visiting repo) repo = st.visiting
          rw [hinsert_not_mem h1, hremove_append_self h1]
        | some vi =>
          rw [hg] at h
          dsimp only at h
          cases hl : dfsLoop (dfs m n) vi.requires
              ⟨st.visited, hinsert st.visiting repo, st.result⟩ with
          | none => rw [hl] at h; cases h
          | some r =>
            rw [hl] at h
            cases r with
            | error e => cases h
            | ok st2 =>
              cases h
              have hv := dfsLoop_visiting_eq (fun r a b hh => ih r a b hh) _ _ _ hl
              show hremove st2.visiting repo = st.visiting
              rw [hv]
              show hremove (hinsert st.visiting repo) repo = st.visiting
              rw [hinsert_not_mem h1, hremove_append_self h1]

theorem hcdLoop_false_path
    {step : String → List String → List String → Option (Bool × List String × List String)}
    (H : ∀ r v p v' p', step r v p = some (false, v', p') → p' = p) :
    ∀ deps v p v' p', hcdLoop step deps v p = some (false, v', p') → p' = p := by
  intro deps
  induction deps with
  | nil =>
    intro v p v' p' h
    simp only [hcdLoop] at h
    cases h
    rfl
  | cons d rest ih =>
    intro v p v' p' h
    simp only [hcdLoop] at h
    cases hs : step (depName d) v p with
    | none => rw [hs] at h; cases h
    | some r =>
      rw [hs] at h
      obtain ⟨b, vm, pm⟩ := r
      cases b with
      | true => cases h
      | false => rw [ih vm pm v' p' h, H _ _ _ _ _ hs]

/-- A `false`-returning `has_circular_dependency` call restores
`path` exactly. -/
theorem hcd_false_path (m : VersionsManifest) :
    ∀ fuel repo v p v' p',
      has_circular_dependency m fuel repo v p = some (false, v', p') → p' = p := by
  intro fuel
  induction fuel with
  | zero => intro repo v p v' p' h; rw [hcd_zero] at h; cases h
  | succ n ih =>
    intro repo v p v' p' h
    rw [hcd_succ] at h
    by_cases h1 : repo ∈ p
    · rw [if_pos h1] at h; cases h
    · rw [if_neg h1] at h
      by_cases h2 : repo ∈ v
      · rw [if_pos h2] at h; cases h; rfl
      · rw [if_neg h2] at h
        cases hg : getRepo m repo with
        | none =>
          rw [hg] at h
          cases h
          exact List.dropLast_concat
        | some vi =>
          rw [hg] at h
          dsimp only at h
          cases hl : hcdLoop (has_circular_dependency m n) vi.requires
              (hinsert v repo) (p ++ [repo]) with
          | none => rw [hl] at h; cases h
          | some r =>
            rw [hl] at h
            obtain ⟨b, vm, pm⟩ := r
            cases b with
            | true => cases h
            | false =>
              cases h
              have hp := hcdLoop_false_path (fun r a b c d hh => ih r a b c d hh) _ _ _ _ _ hl
              rw [hp]
              exact List.dropLast_concat

theorem hcdLoop_visited_mono
    {step : String → List String → List String → Option (Bool × List String × List String)}
    (H : ∀ r v p b v' p', step r v p = some (b, v', p') → ∀ y, y ∈ v → y ∈ v') :
    ∀ deps v p b v' p', hcdLoop step deps v p = some (b, v', p') → ∀ y, y ∈ v → y ∈ v' := by
  intro deps
  induction deps with
  | nil =>
    intro v p b v' p' h
    simp only [hcdLoop] at h
    cases h
    exact fun y hy => hy
  | cons d rest ih =>
    intro v p b v' p' h
    simp only [hcdLoop] at h
    cases hs : step (depName d) v p with
    | none => rw [hs] at h; cases h
    | some r =>
      rw [hs] at h
      obtain ⟨b0, vm, pm⟩ := r
      cases b0 with
      | true => cases h; exact H _ _ _ _ _ _ hs
      | false => exact fun y hy => ih vm pm b v' p' h y (H _ _ _ _ _ _ hs y hy)

/-- `has_circular_dependency` only ever grows `visited`. -/
theorem hcd_visited_mono (m : VersionsManifest) :
    ∀ fuel repo v p b v' p',
      has_circular_dependency m fuel repo v p = some (b, v', p') → ∀ y, y ∈ v → y ∈ v' := by
  intro fuel
  induction fuel with
  | zero => intro repo v p b v' p' h; rw [hcd_zero] at h; cases h
  | succ n ih =>
    intro repo v p b v' p' h
    rw [hcd_succ] at h
    by_cases h1 : repo ∈ p
    · rw [if_pos h1] at h; cases h; exact fun y hy => hy
    · rw [if_neg h1] at h
      by_cases h2 : repo ∈ v
      · rw [if_pos h2] at h; cases h; exact fun y hy => hy
      · rw [if_neg h2] at h
        have hsub : ∀ y, y ∈ v → y ∈ hinsert v repo := by
          intro y hy
          rw [hinsert_not_mem h2]
          exact List.mem_append_left _ hy
        cases hg : getRepo m repo with
        | none =>
          rw [hg] at h
          cases h
          exact hsub
        | some vi =>
          rw [hg] at h
          dsimp only at h
          cases hl : hcdLoop (has_circular_dependency m n) vi.requires
              (hinsert v repo) (p ++ [repo]) with
          | none => rw [hl] at h; cases h
          | some r =>
            rw [hl] at h
            obtain ⟨b0, vm, pm⟩ := r
            have hmono := hcdLoop_visited_mono
              (fun r a b c d e hh => ih r a b c d e hh) _ _ _ _ _ _ hl
            cases b0 with
            | true => cases h; exact fun y hy => hmono y (hsub y hy)
            | false => cases h; exact fun y hy => hmono y (hsub y hy)

/-! ### Fuel adequacy -/

/-- Number of manifest names not yet in the set `v`; the measure that
shrinks as a traversal descends. -/
def freeCount (m : VersionsManifest) (v : List String) : Nat :=
  ((allNames m).filter (fun x => decide (x ∉ v))).length

theorem filter_length_mono {l : List String} {p q : String → Bool}
    (h : ∀ a, p a = true → q a = true) :
    (l.filter p).length ≤ (l.filter q).length := by
  induction l with
  | nil => simp
  | cons a l ih =>
    cases hp : p a with
    | true => simp [List.filter_cons, hp, h a hp]; omega
    | false =>
      cases hq : q a with
      | true => simp [List.filter_cons, hp, hq]; omega
      | false => simpa [List.filter_cons, hp, hq] using ih

theorem filter_length_strict {l : List String} {p q : String → Bool} {x : String}
    (h : ∀ a, p a = true → q a = true) (hx : x ∈ l)
    (hqx : q x = true) (hpx : p x = false) :
    (l.filter p).length < (l.filter q).length := by
  induction l with
  | nil => cases hx
  | cons a l ih =>
    by_cases ha : a = x
    · subst ha
      have h1 : (l.filter p).length ≤ (l.filter q).length := filter_length_mono h
      simp [List.filter_cons, hpx, hqx]
      omega
    · have hx' : x ∈ l := by
        cases List.mem_cons.mp hx with
        | inl h1 => exact absurd h1.symm ha
        | inr h2 => exact h2
      have := ih hx'
      cases hp : p a with
      | true => simp [List.filter_cons, hp, h a hp]; omega
      | false =>
        cases hq : q a with
        | true => simp [List.filter_cons, hp, hq]; omega
        | false => simpa [List.filter_cons, hp, hq] using this

theorem freeCount_le_of_subset {m : VersionsManifest} {v v' : List String}
    (h : ∀ y, y ∈ v → y ∈ v') : freeCount m v' ≤ freeCount m v := by
  refine filter_length_mono (fun a ha => ?_)
  simp only [decide_eq_true_eq] at ha ⊢
  exact fun hav => ha (h a hav)

theorem freeCount_append_lt {m : VersionsManifest} {v : List String} {x : String}
    (hx : x ∈ allNames m) (hv : x ∉ v) :
    freeCount m (v ++ [x]) < freeCount m v := by
  refine filter_length_strict (fun a ha => ?_) hx (by simpa using hv) (by simp)
  simp only [decide_eq_true_eq, List.mem_append] at ha ⊢
  exact fun hav => ha (Or.inl hav)

theorem freeCount_lt_fuelBound (m : VersionsManifest) (v : List String) :
    freeCount m v < fuelBound m := by
  unfold freeCount fuelBound
  have := List.length_filter_le (fun x => decide (x ∉ v)) (allNames m)
  omega

theorem dfsLoop_ne_none {m : VersionsManifest} {fuel : Nat}
    {step : String → DfsSt → Option (Except String DfsSt)}
    (Hne : ∀ r st, freeCount m st.visiting < fuel → step r st ≠ none)
    (Hres : ∀ r st st', step r st = some (Except.ok st') → st'.visiting = st.visiting) :
    ∀ deps st, freeCount m st.visiting < fuel → dfsLoop step deps st ≠ none := by
  intro deps
  induction deps with
  | nil => intro st _ h; simp only [dfsLoop] at h; cases h
  | cons d rest ih =>
    intro st hf h
    simp only [dfsLoop] at h
    cases hs : step (depName d) st with
    | none => exact Hne _ _ hf hs
    | some r =>
      rw [hs] at h
      cases r with
      | error e => cases h
      | ok st' =>
        have hv : st'.visiting = st.visiting := Hres _ _ _ hs
        exact ih st' (by rw [hv]; exact hf) h

/-- The chosen fuel never runs out in `dfs`. -/
theorem dfs_ne_none (m : VersionsManifest) :
    ∀ fuel repo st, freeCount m st.visiting < fuel → dfs m fuel repo st ≠ none := by
  intro fuel
  induction fuel with
  | zero => intro repo st hf; omega
  | succ n ih =>
    intro repo st hf h
    rw [dfs_succ] at h
    by_cases h1 : repo ∈ st.visiting
    · rw [if_pos h1] at h; cases h
    · rw [if_neg h1] at h
      by_cases h2 : repo ∈ st.visited
      · rw [if_pos h2] at h; cases h
      · rw [if_neg h2] at h
        cases hg : getRepo m repo with
        | none => rw [hg] at h; cases h
        | some vi =>
          rw [hg] at h
          dsimp only at h
          have hkey : repo ∈ allNames m := key_mem_allNames (getRepo_mem_keys hg)
          have hlt : freeCount m (hinsert st.visiting repo) < n := by
            rw [hinsert_not_mem h1]
            have := freeCount_append_lt (m := m) hkey h1
            omega
          cases hl : dfsLoop (dfs m n) vi.requires
              ⟨st.visited, hinsert st.visiting repo, st.result⟩ with
          | none =>
            exact dfsLoop_ne_none (fun r st0 hf0 => ih r st0 hf0)
              (fun r a b hh => dfs_visiting_eq m n r a b hh) _ _ hlt hl
          | some r =>
            rw [hl] at h
            cases r with
            | error e => cases h
            | ok st2 => cases h

theorem hcdLoop_ne_none {m : VersionsManifest} {fuel : Nat}
    {step : String → List String → List String → Option (Bool × List String × List String)}
    (Hne : ∀ r v p, freeCount m v < fuel → step r v p ≠ none)
    (Hmono : ∀ r v p b v' p', step r v p = some (b, v', p') → ∀ y, y ∈ v → y ∈ v') :
    ∀ deps v p, freeCount m v < fuel → hcdLoop step deps v p ≠ none := by
  intro deps
  induction deps with
  | nil => intro v p _ h; simp only [hcdLoop] at h; cases h
  | cons d rest ih =>
    intro v p hf h
    simp only [hcdLoop] at h
    cases hs : step (depName d) v p with
    | none => exact Hne _ _ _ hf hs
    | some r =>
      rw [hs] at h
      obtain ⟨b, v', p'⟩ := r
      cases b with
      | true => cases h
      | false =>
        have hle := freeCount_le_of_subset (m := m) (Hmono _ _ _ _ _ _ hs)
        exact ih v' p' (by omega) h

/-- The chosen fuel never runs out in `has_circular_dependency`. -/
theorem hcd_ne_none (m : VersionsManifest) :
    ∀ fuel repo v p, freeCount m v < fuel →
      has_circular_dependency m fuel repo v p ≠ none := by
  intro fuel
  induction fuel with
  | zero => intro repo v p hf; omega
  | succ n ih =>
    intro repo v p hf h
    rw [hcd_succ] at h
    by_cases h1 : repo ∈ p
    · rw [if_pos h1] at h; cases h
    · rw [if_neg h1] at h
      by_cases h2 : repo ∈ v
      · rw [if_pos h2] at h; cases h
      · rw [if_neg h2] at h
        cases hg : getRepo m repo with
        | none => rw [hg] at h; cases h
        | some vi =>
          rw [hg] at h
          dsimp only at h
          have hkey : repo ∈ allNames m := key_mem_allNames (getRepo_mem_keys hg)
          have hlt : freeCount m (hinsert v repo) < n := by
            rw [hinsert_not_mem h2]
            have := freeCount_append_lt (m := m) hkey h2
            omega
          cases hl : hcdLoop (has_circular_dependency m n) vi.requires
              (hinsert v repo) (p ++ [repo]) with
          | none =>
            exact hcdLoop_ne_none (fun r a b hf0 => ih r a b hf0)
              (fun r a b c d e hh => hcd_visited_mono m n r a b c d e hh) _ _ _ hlt hl
          | some r =>
            rw [hl] at h
            obtain ⟨b, v', p'⟩ := r
            cases b with
            | true => cases h
            | false => cases h

theorem detectAux_isSome (m : VersionsManifest) :
    ∀ ks, (detectAux m ks).isSome := by
  intro ks
  induction ks with
  | nil => simp [detectAux]
  | cons repo rest ih =>
    simp only [detectAux]
    cases hr : has_circular_dependency m (fuelBound m) repo [] [] with
    | none => exact absurd hr (hcd_ne_none m _ _ _ _ (freeCount_lt_fuelBound m []))
    | some r =>
      obtain ⟨b, v', p'⟩ := r
      cases b with
      | true => rfl
      | false => exact ih

/-- `detect_circular_dependencies` terminates on every manifest. -/
theorem detect_isSome (m : VersionsManifest) :
    (detect_circular_dependencies m).isSome :=
  detectAux_isSome m (keys m)

/-- `validate` terminates on every manifest. -/
theorem validate_isSome (m : VersionsManifest) : (validate m).isSome := by
  unfold validate
  cases hd : detect_circular_dependencies m with
  | none => exact absurd hd (by
      have := detect_isSome m
      intro hh
      rw [hh] at this
      cases this)
  | some circ => rfl

theorem buildOrderAux_isSome (m : VersionsManifest) :
    ∀ ks st, st.visiting = [] → (buildOrderAux m ks st).isSome := by
  intro ks
  induction ks with
  | nil => intro st _; rfl
  | cons repo rest ih =>
    intro st hv
    simp only [buildOrderAux]
    by_cases h1 : repo ∈ st.visited
    · rw [if_pos h1]; exact ih st hv
    · rw [if_neg h1]
      cases hr : dfs m (fuelBound m) repo st with
      | none =>
        refine absurd hr (dfs_ne_none m _ _ _ ?_)
        rw [hv]
        exact freeCount_lt_fuelBound m []
      | some r =>
        cases r with
        | error e => rfl
        | ok st' =>
          refine ih st' ?_
          rw [dfs_visiting_eq m _ _ _ _ hr, hv]

/-- `build_order` terminates on every manifest. -/
theorem build_order_isSome (m : VersionsManifest) : (build_order m).isSome :=
  buildOrderAux_isSome m (keys m) ⟨[], [], []⟩ rfl

/-! ### The main invariant of the build-order traversal -/

/-- `l` is topologically ordered: every listed repository's
dependencies occur in `l` strictly before it. -/
def OrdProp (m : VersionsManifest) (l : List String) : Prop :=
  ∀ a, a ∈ l → ∀ vi, getRepo m a = some vi → ∀ d, d ∈ vi.requires →
    depName d ∈ l ∧ pos l (depName d) < pos l a

/-- State invariant of `dfs`: `visited` and `result` hold the same
names, `result` has no duplicates and is topologically ordered. -/
def Inv (m : VersionsManifest) (st : DfsSt) : Prop :=
  (∀ x, x ∈ st.visited ↔ x ∈ st.result) ∧ st.result.Nodup ∧ OrdProp m st.result

/-- Relation between the states before and after an `Ok` traversal
step: `visiting` is restored, `visited` grows, `result` is extended,
and every new `visited` name was not on the stack and satisfies the
origin predicate `O`. -/
def Post (_m : VersionsManifest) (O : String → Prop) (st st' : DfsSt) : Prop :=
  st'.visiting = st.visiting ∧
  (∀ y, y ∈ st.visited → y ∈ st'.visited) ∧
  (∃ t, st'.result = st.result ++ t) ∧
  (∀ y, y ∈ st'.visited → y ∈ st.visited ∨ (y ∉ st.visiting ∧ O y))

theorem Post_refl (m : VersionsManifest) (O : String → Prop) (st : DfsSt) :
    Post m O st st :=
  ⟨rfl, fun _ hy => hy, ⟨[], by simp⟩, fun _ hy => Or.inl hy⟩

theorem Post_trans {m : VersionsManifest} {O : String → Prop} {st st1 st2 : DfsSt}
    (h1 : Post m O st st1) (h2 : Post m O st1 st2) : Post m O st st2 := by
  obtain ⟨hv1, hs1, ⟨t1, ht1⟩, hc1⟩ := h1
  obtain ⟨hv2, hs2, ⟨t2, ht2⟩, hc2⟩ := h2
  refine ⟨hv2.trans hv1, fun y hy => hs2 y (hs1 y hy), ⟨t1 ++ t2, by rw [ht2, ht1, List.append_assoc]⟩, ?_⟩
  intro y hy
  cases hc2 y hy with
  | inl h => exact hc1 y h
  | inr h =>
    refine Or.inr ⟨fun hh => h.1 ?_, h.2⟩
    rw [hv1]
    exact hh

theorem Post_mono {m : VersionsManifest} {O O' : String → Prop} {st st' : DfsSt}
    (h : ∀ y, O y → O' y) (hp : Post m O st st') : Post m O' st st' :=
  ⟨hp.1, hp.2.1, hp.2.2.1, fun y hy => (hp.2.2.2 y hy).imp id (fun hh => ⟨hh.1, h y hh.2⟩)⟩

theorem nodup_snoc {l : List String} {x : String} (h : l.Nodup) (hx : x ∉ l) :
    (l ++ [x]).Nodup := by
  refine List.Nodup.append h (List.nodup_singleton x) ?_
  intro a ha hax
  rw [List.mem_singleton] at hax
  exact hx (hax ▸ ha)

theorem dfsLoop_ok_master {m : VersionsManifest} {O : String → Prop}
    {step : String → DfsSt → Option (Except String DfsSt)}
    (H : ∀ r st st', Inv m st → step r st = some (Except.ok st') →
      Inv m st' ∧ r ∈ st'.visited ∧ Post m (fun y => y = r ∨ O y) st st') :
    ∀ deps st st', Inv m st → (∀ d, d ∈ deps → O (depName d)) →
      dfsLoop step deps st = some (Except.ok st') →
      Inv m st' ∧ (∀ d, d ∈ deps → depName d ∈ st'.visited) ∧ Post m O st st' := by
  intro deps
  induction deps with
  | nil =>
    intro st st' hInv _ h
    simp only [dfsLoop] at h
    cases h
    exact ⟨hInv, fun d hd => absurd hd (List.not_mem_nil d), Post_refl m O st⟩
  | cons d rest ih =>
    intro st st' hInv hO h
    simp only [dfsLoop] at h
    cases hs : step (depName d) st with
    | none => rw [hs] at h; cases h
    | some r =>
      rw [hs] at h
      cases r with
      | error e => cases h
      | ok stm =>
        obtain ⟨hInvm, hdm, hPm⟩ := H _ _ _ hInv hs
        have hPm' : Post m O st stm :=
          Post_mono (fun y hy => hy.elim (fun he => he ▸ hO d (List.mem_cons_self d rest)) id) hPm
        obtain ⟨hInv', hds', hP'⟩ := ih stm st' hInvm (fun d' hd' => hO d' (List.mem_cons_of_mem d hd')) h
        refine ⟨hInv', ?_, Post_trans hPm' hP'⟩
        intro d' hd'
        cases List.mem_cons.mp hd' with
        | inl he => exact he ▸ hP'.2.1 _ hdm
        | inr hr => exact hds' d' hr

/-- Master lemma for `Ok`-returning `dfs` calls: the invariant is
preserved, the argument ends up `visited`, and all state growth is
accounted for. -/
theorem dfs_ok_master (m : VersionsManifest) :
    ∀ fuel repo st st', Inv m st → dfs m fuel repo st = some (Except.ok st') →
      Inv m st' ∧ repo ∈ st'.visited ∧
        Post m (fun y => y = repo ∨ DepTarget m y) st st' := by
  intro fuel
  induction fuel with
  | zero => intro repo st st' _ h; rw [dfs_zero] at h; cases h
  | succ n ih =>
    intro repo st st' hInv h
    rw [dfs_succ] at h
    by_cases h1 : repo ∈ st.visiting
    · rw [if_pos h1] at h; cases h
    · rw [if_neg h1] at h
      by_cases h2 : repo ∈ st.visited
      · rw [if_pos h2] at h
        cases h
        exact ⟨hInv, h2, Post_refl m _ st⟩
      · rw [if_neg h2] at h
        have hmemres : repo ∉ st.result := fun hr => h2 ((hInv.1 repo).mpr hr)
        cases hg : getRepo m repo with
        | none =>
          rw [hg] at h
          cases h
          have hvisiting : hremove (hinsert st.visiting repo) repo = st.visiting := by
            rw [hinsert_not_mem h1, hremove_append_self h1]
          have hvisited : hinsert st.visited repo = st.visited ++ [repo] :=
            hinsert_not_mem h2
          constructor
          · constructor
            · intro x
              show x ∈ hinsert st.visited repo ↔ x ∈ st.result ++ [repo]
              rw [hvisited]
              simp only [List.mem_append, List.mem_singleton]
              exact Iff.or (hInv.1 x) Iff.rfl
            constructor
            · exact nodup_snoc hInv.2.1 hmemres
            · intro a ha vi' hvi' d hd
              show depName d ∈ st.result ++ [repo] ∧
                pos (st.result ++ [repo]) (depName d) < pos (st.result ++ [repo]) a
              cases List.mem_append.mp ha with
              | inr hr =>
                rw [List.mem_singleton] at hr
                rw [hr] at hvi'
                rw [hg] at hvi'
                cases hvi'
              | inl hl =>
                obtain ⟨hmem, hpos⟩ := hInv.2.2 a hl vi' hvi' d hd
                refine ⟨List.mem_append_left _ hmem, ?_⟩
                rw [pos_append_left hmem, pos_append_left hl]
                exact hpos
          constructor
          · show repo ∈ hinsert st.visited repo
            rw [hvisited]
            exact List.mem_append_right _ (List.mem_singleton_self repo)
          · refine ⟨hvisiting, ?_, ⟨[repo], rfl⟩, ?_⟩
            · intro y hy
              show y ∈ hinsert st.visited repo
              rw [hvisited]
              exact List.mem_append_left _ hy
            · intro y hy
              rw [hvisited] at hy
              cases List.mem_append.mp hy with
              | inl h => exact Or.inl h
              | inr h =>
                rw [List.mem_singleton] at h
                exact Or.inr ⟨h ▸ h1, Or.inl h⟩
        | some vi =>
          rw [hg] at h
          dsimp only at h
          cases hl : dfsLoop (dfs m n) vi.requires
              ⟨st.visited, hinsert st.visiting repo, st.result⟩ with
          | none => rw [hl] at h; cases h
          | some r =>
            rw [hl] at h
            cases r with
            | error e => cases h
            | ok st2 =>
              cases h
              have hInv1 : Inv m ⟨st.visited, hinsert st.visiting repo, st.result⟩ := hInv
              obtain ⟨hInv2, hdeps, hPost2⟩ :=
                dfsLoop_ok_master (O := DepTarget m)
                  (fun r a b hi hh => ih r a b hi hh) vi.requires _ st2 hInv1
                  (fun d hd => depTarget_of hg hd) hl
              have hvis1 : hinsert st.visiting repo = st.visiting ++ [repo] :=
                hinsert_not_mem h1
              have hvis2 : st2.visiting = st.visiting ++ [repo] := by
                rw [hPost2.1]; exact hvis1
              have hrepo2 : repo ∉ st2.visited := by
                intro hr
                cases hPost2.2.2.2 repo hr with
                | inl hh => exact h2 hh
                | inr hh =>
                  refine hh.1 ?_
                  show repo ∈ hinsert st.visiting repo
                  rw [hvis1]
                  exact List.mem_append_right _ (List.mem_singleton_self repo)
              have hrepo2r : repo ∉ st2.result := fun hr => hrepo2 ((hInv2.1 repo).mpr hr)
              have hvisited : hinsert st2.visited repo = st2.visited ++ [repo] :=
                hinsert_not_mem hrepo2
              have hvisiting : hremove st2.visiting repo = st.visiting := by
                rw [hvis2, hremove_append_self h1]
              constructor
              · constructor
                · intro x
                  show x ∈ hinsert st2.visited repo ↔ x ∈ st2.result ++ [repo]
                  rw [hvisited]
                  simp only [List.mem_append, List.mem_singleton]
                  exact Iff.or (hInv2.1 x) Iff.rfl
                constructor
                · exact nodup_snoc hInv2.2.1 hrepo2r
                · intro a ha vi' hvi' d hd
                  show depName d ∈ st2.result ++ [repo] ∧
                    pos (st2.result ++ [repo]) (depName d) < pos (st2.result ++ [repo]) a
                  cases List.mem_append.mp ha with
                  | inl hal =>
                    obtain ⟨hmem, hpos⟩ := hInv2.2.2 a hal vi' hvi' d hd
                    refine ⟨List.mem_append_left _ hmem, ?_⟩
                    rw [pos_append_left hmem, pos_append_left hal]
                    exact hpos
                  | inr har =>
                    rw [List.mem_singleton] at har
                    subst har
                    rw [hg] at hvi'
                    cases hvi'
                    have hdm : depName d ∈ st2.result := (hInv2.1 _).mp (hdeps d hd)
                    refine ⟨List.mem_append_left _ hdm, ?_⟩
                    rw [pos_append_left hdm, pos_append_self hrepo2r]
                    exact pos_lt_length hdm
              constructor
              · show repo ∈ hinsert st2.visited repo
                rw [hvisited]
                exact List.mem_append_right _ (List.mem_singleton_self repo)
              · refine ⟨hvisiting, ?_, ?_, ?_⟩
                · intro y hy
                  show y ∈ hinsert st2.visited repo
                  rw [hvisited]
                  exact List.mem_append_left _ (hPost2.2.1 y hy)
                · obtain ⟨t, ht⟩ := hPost2.2.2.1
                  exact ⟨t ++ [repo], by
                    show st2.result ++ [repo] = st.result ++ (t ++ [repo])
                    rw [ht]
                    simp [List.append_assoc]⟩
                · intro y hy
                  rw [hvisited] at hy
                  cases List.mem_append.mp hy with
                  | inr hr =>
                    rw [List.mem_singleton] at hr
                    exact Or.inr ⟨hr ▸ h1, Or.inl hr⟩
                  | inl hl2 =>
                    cases hPost2.2.2.2 y hl2 with
                    | inl hh => exact Or.inl hh
                    | inr hh =>
                      refine Or.inr ⟨fun hy2 => hh.1 ?_, Or.inr hh.2⟩
                      show y ∈ hinsert st.visiting repo
                      rw [hvis1]
                      exact List.mem_append_left _ hy2

/-- Master lemma for the key loop of `build_order`. -/
theorem buildOrderAux_ok (m : VersionsManifest) :
    ∀ ks st l, Inv m st → buildOrderAux m ks st = some (Except.ok l) →
      ∃ st', l = st'.result ∧ Inv m st' ∧ (∀ k, k ∈ ks → k ∈ st'.visited) ∧
        Post m (fun y => y ∈ ks ∨ DepTarget m y) st st' := by
  intro ks
  induction ks with
  | nil =>
    intro st l hInv h
    simp only [buildOrderAux] at h
    cases h
    exact ⟨st, rfl, hInv, fun k hk => absurd hk (List.not_mem_nil k), Post_refl m _ st⟩
  | cons repo rest ih =>
    intro st l hInv h
    simp only [buildOrderAux] at h
    by_cases h1 : repo ∈ st.visited
    · rw [if_pos h1] at h
      obtain ⟨st', hl, hInv', hks, hP⟩ := ih st l hInv h
      refine ⟨st', hl, hInv', ?_, Post_mono (fun y hy => hy.imp (List.mem_cons_of_mem repo) id) hP⟩
      intro k hk
      cases List.mem_cons.mp hk with
      | inl he => exact he ▸ hP.2.1 repo h1
      | inr hr => exact hks k hr
    · rw [if_neg h1] at h
      cases hr : dfs m (fuelBound m) repo st with
      | none => rw [hr] at h; cases h
      | some r =>
        rw [hr] at h
        cases r with
        | error e => cases h
        | ok st1 =>
          obtain ⟨hInv1, hrepo1, hP1⟩ := dfs_ok_master m _ repo st st1 hInv hr
          obtain ⟨st', hl, hInv', hks, hP⟩ := ih st1 l hInv1 h
          have hP1' : Post m (fun y => y ∈ repo :: rest ∨ DepTarget m y) st st1 :=
            Post_mono (fun y hy => hy.imp
              (fun he => by rw [he]; exact List.mem_cons_self repo rest) id) hP1
          have hP' : Post m (fun y => y ∈ repo :: rest ∨ DepTarget m y) st1 st' :=
            Post_mono (fun y hy => hy.imp (List.mem_cons_of_mem repo) id) hP
          refine ⟨st', hl, hInv', ?_, Post_trans hP1' hP'⟩
          intro k hk
          cases List.mem_cons.mp hk with
          | inl he => exact he ▸ hP.2.1 repo hrepo1
          | inr hrr => exact hks k hrr

/-! ### Error soundness: a `dfs` error exhibits a cycle -/

theorem Inv_nil (m : VersionsManifest) : Inv m ⟨[], [], []⟩ :=
  ⟨fun _ => Iff.rfl, List.nodup_nil, fun a ha => absurd ha (List.not_mem_nil a)⟩

theorem dfsLoop_error_sound {m : VersionsManifest} {fuel : Nat}
    (Herr : ∀ r st e, Inv m st → EChain m (st.visiting ++ [r]) →
      dfs m fuel r st = some (Except.error e) →
      HasCycle m ∧ ∃ rr w, e = "Circular dependency detected involving " ++ rr ∧
        IsCycle m rr w) :
    ∀ deps st e, Inv m st →
      (∀ d, d ∈ deps → EChain m (st.visiting ++ [depName d])) →
      dfsLoop (dfs m fuel) deps st = some (Except.error e) →
      HasCycle m ∧ ∃ rr w, e = "Circular dependency detected involving " ++ rr ∧
        IsCycle m rr w := by
  intro deps
  induction deps with
  | nil => intro st e _ _ h; simp only [dfsLoop] at h; cases h
  | cons d rest ih =>
    intro st e hInv hch h
    simp only [dfsLoop] at h
    cases hs : dfs m fuel (depName d) st with
    | none => rw [hs] at h; cases h
    | some r =>
      rw [hs] at h
      cases r with
      | error e' =>
        cases h
        exact Herr _ _ _ hInv (hch d (List.mem_cons_self d rest)) hs
      | ok stm =>
        obtain ⟨hInvm, _, hPm⟩ := dfs_ok_master m fuel (depName d) st stm hInv hs
        refine ih stm e hInvm ?_ h
        intro d' hd'
        rw [hPm.1]
        exact hch d' (List.mem_cons_of_mem d hd')

/-- An error from `dfs` proves the manifest cyclic, and the message
names a repository that lies on a cycle. -/
theorem dfs_error_sound (m : VersionsManifest) :
    ∀ fuel repo st e, Inv m st → EChain m (st.visiting ++ [repo]) →
      dfs m fuel repo st = some (Except.error e) →
      HasCycle m ∧ ∃ rr w, e = "Circular dependency detected involving " ++ rr ∧
        IsCycle m rr w := by
  intro fuel
  induction fuel with
  | zero => intro repo st e _ _ h; rw [dfs_zero] at h; cases h
  | succ n ih =>
    intro repo st e hInv hch h
    rw [dfs_succ] at h
    by_cases h1 : repo ∈ st.visiting
    · rw [if_pos h1] at h
      cases h
      obtain ⟨w, hw⟩ := cycle_of_mem_chain h1 hch
      exact ⟨⟨repo, w, hw⟩, repo, w, rfl, hw⟩
    · rw [if_neg h1] at h
      by_cases h2 : repo ∈ st.visited
      · rw [if_pos h2] at h; cases h
      · rw [if_neg h2] at h
        cases hg : getRepo m repo with
        | none => rw [hg] at h; cases h
        | some vi =>
          rw [hg] at h
          dsimp only at h
          cases hl : dfsLoop (dfs m n) vi.requires
              ⟨st.visited, hinsert st.visiting repo, st.result⟩ with
          | none => rw [hl] at h; cases h
          | some r =>
            rw [hl] at h
            cases r with
            | ok st2 => cases h
            | error e' =>
              cases h
              refine dfsLoop_error_sound (fun r a b hi hc hh => ih r a b hi hc hh)
                vi.requires ⟨st.visited, hinsert st.visiting repo, st.result⟩ e hInv ?_ hl
              intro d hd
              show EChain m (hinsert st.visiting repo ++ [depName d])
              rw [hinsert_not_mem h1]
              refine echain_snoc hch ?_
              intro z hz
              rw [List.getLast?_concat] at hz
              cases hz
              exact ⟨vi, hg, d, hd, rfl⟩

/-! ### Topological ordering contradicts any cycle -/

theorem ordProp_chain_pos {m : VersionsManifest} {l : List String}
    (hord : OrdProp m l) :
    ∀ cs c last, c ∈ l → EChain m (c :: (cs ++ [last])) →
      last ∈ l ∧ pos l last < pos l c := by
  intro cs
  induction cs with
  | nil =>
    intro c last hc hch
    obtain ⟨he, -⟩ := hch
    obtain ⟨vi, hg, d, hd, hdn⟩ := he
    obtain ⟨hmem, hpos⟩ := hord c hc vi hg d hd
    rw [hdn] at hmem hpos
    exact ⟨hmem, hpos⟩
  | cons c2 cs ih =>
    intro c last hc hch
    obtain ⟨he, hch2⟩ := hch
    obtain ⟨vi, hg, d, hd, hdn⟩ := he
    obtain ⟨hmem2, hpos2⟩ := hord c hc vi hg d hd
    rw [hdn] at hmem2 hpos2
    obtain ⟨hmem, hpos⟩ := ih c2 last hmem2 hch2
    exact ⟨hmem, lt_trans hpos hpos2⟩

/-- A topologically ordered list cannot contain a node of a cycle. -/
theorem ordProp_no_cycle {m : VersionsManifest} {l : List String} {x : String}
    {w : List String} (hord : OrdProp m l) (hx : x ∈ l) (hc : IsCycle m x w) : False := by
  obtain ⟨-, hpos⟩ := ordProp_chain_pos hord w x x hx hc
  omega

/-- The head of a cycle is a manifest key. -/
theorem cycle_head_key {m : VersionsManifest} {x : String} {w : List String}
    (hc : IsCycle m x w) : x ∈ keys m := by
  have hcons : ∃ b t, w ++ [x] = b :: t := by
    cases w with
    | nil => exact ⟨x, [], rfl⟩
    | cons a t' => exact ⟨a, t' ++ [x], rfl⟩
  obtain ⟨b, t, hbt⟩ := hcons
  unfold IsCycle at hc
  rw [hbt] at hc
  obtain ⟨vi, hg, -⟩ := hc.1
  exact getRepo_mem_keys hg

/-! ### `build_order` errors exactly on cyclic manifests -/

theorem buildOrderAux_error_sound (m : VersionsManifest) :
    ∀ ks st e, Inv m st → st.visiting = [] →
      buildOrderAux m ks st = some (Except.error e) →
      HasCycle m ∧ ∃ rr w, e = "Circular dependency detected involving " ++ rr ∧
        IsCycle m rr w := by
  intro ks
  induction ks with
  | nil => intro st e _ _ h; simp only [buildOrderAux] at h; cases h
  | cons repo rest ih =>
    intro st e hInv hv h
    simp only [buildOrderAux] at h
    by_cases h1 : repo ∈ st.visited
    · rw [if_pos h1] at h
      exact ih st e hInv hv h
    · rw [if_neg h1] at h
      cases hr : dfs m (fuelBound m) repo st with
      | none => rw [hr] at h; cases h
      | some r =>
        rw [hr] at h
        cases r with
        | error e' =>
          cases h
          refine dfs_error_sound m _ repo st e hInv ?_ hr
          rw [hv]
          trivial
        | ok st1 =>
          obtain ⟨hInv1, -, hP1⟩ := dfs_ok_master m _ repo st st1 hInv hr
          refine ih st1 e hInv1 ?_ h
          rw [hP1.1, hv]

/-- `build_order` fails exactly on cyclic manifests, and its error
message names a repository lying on a cycle.  (Shared backbone of
claims about `build_order` error behaviour.) -/
theorem build_order_error_to_cycle {m : VersionsManifest} {e : String}
    (h : build_order m = some (Except.error e)) :
    HasCycle m ∧ ∃ rr w, e = "Circular dependency detected involving " ++ rr ∧
      IsCycle m rr w :=
  buildOrderAux_error_sound m (keys m) ⟨[], [], []⟩ e (Inv_nil m) rfl h

theorem build_order_ok_no_cycle {m : VersionsManifest} {l : List String}
    (h : build_order m = some (Except.ok l)) : ¬ HasCycle m := by
  rintro ⟨x, w, hc⟩
  obtain ⟨st', hl, hInv', hks, -⟩ := buildOrderAux_ok m (keys m) ⟨[], [], []⟩ l (Inv_nil m) h
  have hx : x ∈ st'.result := (hInv'.1 x).mp (hks x (cycle_head_key hc))
  exact ordProp_no_cycle hInv'.2.2 hx hc

theorem hasCycle_build_order_error {m : VersionsManifest} (h : HasCycle m) :
    ∃ e, build_order m = some (Except.error e) := by
  cases hb : build_order m with
  | none => exact absurd hb (by
      have := build_order_isSome m
      intro hh
      rw [hh] at this
      cases this)
  | some r =>
    cases r with
    | error e => exact ⟨e, rfl⟩
    | ok l => exact absurd h (build_order_ok_no_cycle hb)

/-! ### True soundness of `has_circular_dependency`: the reported
path ends by re-visiting one of its earlier entries -/

theorem hcdLoop_true_sound {m : VersionsManifest} {fuel : Nat}
    (Htrue : ∀ r v p v' p', EChain m (p ++ [r]) →
      has_circular_dependency m fuel r v p = some (true, v', p') →
      EChain m p' ∧ ∃ f x w2, p' = f ++ x :: (w2 ++ [x])) :
    ∀ deps v p v' p', (∀ d, d ∈ deps → EChain m (p ++ [depName d])) →
      hcdLoop (has_circular_dependency m fuel) deps v p = some (true, v', p') →
      EChain m p' ∧ ∃ f x w2, p' = f ++ x :: (w2 ++ [x]) := by
  intro deps
  induction deps with
  | nil => intro v p v' p' _ h; simp only [hcdLoop] at h; cases h
  | cons d rest ih =>
    intro v p v' p' hch h
    simp only [hcdLoop] at h
    cases hs : has_circular_dependency m fuel (depName d) v p with
    | none => rw [hs] at h; cases h
    | some r =>
      rw [hs] at h
      obtain ⟨b, vm, pm⟩ := r
      cases b with
      | true =>
        cases h
        exact Htrue _ _ _ _ _ (hch d (List.mem_cons_self d rest)) hs
      | false =>
        have hp : pm = p := hcd_false_path m fuel _ _ _ _ _ hs
        subst hp
        exact ih vm pm v' p' (fun d' hd' => hch d' (List.mem_cons_of_mem d hd')) h

/-- A `true` result of `has_circular_dependency` carries a path that
is an edge chain whose last entry repeats an earlier entry. -/
theorem hcd_true_sound (m : VersionsManifest) :
    ∀ fuel repo v p v' p', EChain m (p ++ [repo]) →
      has_circular_dependency m fuel repo v p = some (true, v', p') →
      EChain m p' ∧ ∃ f x w2, p' = f ++ x :: (w2 ++ [x]) := by
  intro fuel
  induction fuel with
  | zero => intro repo v p v' p' _ h; rw [hcd_zero] at h; cases h
  | succ n ih =>
    intro repo v p v' p' hch h
    rw [hcd_succ] at h
    by_cases h1 : repo ∈ p
    · rw [if_pos h1] at h
      cases h
      refine ⟨hch, ?_⟩
      obtain ⟨f, mid, hf⟩ := List.append_of_mem h1
      refine ⟨f, repo, mid, ?_⟩
      rw [hf]
      simp [List.append_assoc]
    · rw [if_neg h1] at h
      by_cases h2 : repo ∈ v
      · rw [if_pos h2] at h; cases h
      · rw [if_neg h2] at h
        cases hg : getRepo m repo with
        | none => rw [hg] at h; cases h
        | some vi =>
          rw [hg] at h
          dsimp only at h
          cases hl : hcdLoop (has_circular_dependency m n) vi.requires
              (hinsert v repo) (p ++ [repo]) with
          | none => rw [hl] at h; cases h
          | some r =>
            rw [hl] at h
            obtain ⟨b, vm, pm⟩ := r
            cases b with
            | false => cases h
            | true =>
              cases h
              refine hcdLoop_true_sound (fun r a b c d hc hh => ih r a b c d hc hh)
                vi.requires _ _ _ _ ?_ hl
              intro d hd
              refine echain_snoc hch ?_
              intro z hz
              rw [List.getLast?_concat] at hz
              cases hz
              exact ⟨vi, hg, d, hd, rfl⟩

/-- A chain whose last entry repeats an earlier entry contains a cycle. -/
theorem shape_hasCycle {m : VersionsManifest} {p' : List String}
    (hch : EChain m p') (hshape : ∃ f x w2, p' = f ++ x :: (w2 ++ [x])) :
    HasCycle m := by
  obtain ⟨f, x, w2, hp⟩ := hshape
  subst hp
  exact ⟨x, w2, echain_suffix f _ hch⟩

/-! ### Bisimulation between the two DFS variants

`has_circular_dependency`'s `visited` set corresponds to the union of
`dfs`'s `visited` and `visiting`, and its `path` is exactly `dfs`'s
`visiting` stack; under this correspondence a `true` result
corresponds to an error and a `false` result to success. -/

/-- The state correspondence between the cycle detector and the
build-order traversal. -/
def Rel (hV hP : List String) (st : DfsSt) : Prop :=
  (∀ y, y ∈ hV ↔ (y ∈ st.visited ∨ y ∈ st.visiting)) ∧ hP = st.visiting

theorem mem_hinsert (s : List String) (x y : String) :
    y ∈ hinsert s x ↔ (y ∈ s ∨ y = x) := by
  unfold hinsert
  by_cases h : x ∈ s
  · rw [if_pos h]
    constructor
    · exact Or.inl
    · rintro (hy | rfl)
      · exact hy
      · exact h
  · rw [if_neg h]
    simp [List.mem_append]

theorem hcdLoop_dfsLoop_bisim (m : VersionsManifest) (fuel : Nat)
    (H : ∀ repo hV hP st, Rel hV hP st →
      (has_circular_dependency m fuel repo hV hP = none ∧ dfs m fuel repo st = none) ∨
      (∃ v' p' e, has_circular_dependency m fuel repo hV hP = some (true, v', p') ∧
        dfs m fuel repo st = some (Except.error e)) ∨
      (∃ v' p' st', has_circular_dependency m fuel repo hV hP = some (false, v', p') ∧
        dfs m fuel repo st = some (Except.ok st') ∧ Rel v' p' st')) :
    ∀ deps hV hP st, Rel hV hP st →
      (hcdLoop (has_circular_dependency m fuel) deps hV hP = none ∧
        dfsLoop (dfs m fuel) deps st = none) ∨
      (∃ v' p' e, hcdLoop (has_circular_dependency m fuel) deps hV hP = some (true, v', p') ∧
        dfsLoop (dfs m fuel) deps st = some (Except.error e)) ∨
      (∃ v' p' st', hcdLoop (has_circular_dependency m fuel) deps hV hP = some (false, v', p') ∧
        dfsLoop (dfs m fuel) deps st = some (Except.ok st') ∧ Rel v' p' st') := by
  intro deps
  induction deps with
  | nil =>
    intro hV hP st hRel
    refine Or.inr (Or.inr ⟨hV, hP, st, ?_, ?_, hRel⟩)
    · simp only [hcdLoop]
    · simp only [dfsLoop]
  | cons d rest ih =>
    intro hV hP st hRel
    rcases H (depName d) hV hP st hRel with ⟨hh, hd⟩ | ⟨v1, p1, e, hh, hd⟩ |
      ⟨v1, p1, st1, hh, hd, hRel1⟩
    · refine Or.inl ⟨?_, ?_⟩
      · simp only [hcdLoop]; rw [hh]
      · simp only [dfsLoop]; rw [hd]
    · refine Or.inr (Or.inl ⟨v1, p1, e, ?_, ?_⟩)
      · simp only [hcdLoop]; rw [hh]
      · simp only [dfsLoop]; rw [hd]
    · have hstep1 : hcdLoop (has_circular_dependency m fuel) (d :: rest) hV hP =
          hcdLoop (has_circular_dependency m fuel) rest v1 p1 := by
        simp only [hcdLoop]; rw [hh]
      have hstep2 : dfsLoop (dfs m fuel) (d :: rest) st =
          dfsLoop (dfs m fuel) rest st1 := by
        simp only [dfsLoop]; rw [hd]
      rw [hstep1, hstep2]
      exact ih v1 p1 st1 hRel1

/-- Bisimulation between `has_circular_dependency` and `dfs` started
on related states: the same fuel is consumed, `true` matches `error`,
`false` matches `Ok` with related final states. -/
theorem hcd_dfs_bisim (m : VersionsManifest) :
    ∀ fuel repo hV hP st, Rel hV hP st →
      (has_circular_dependency m fuel repo hV hP = none ∧ dfs m fuel repo st = none) ∨
      (∃ v' p' e, has_circular_dependency m fuel repo hV hP = some (true, v', p') ∧
        dfs m fuel repo st = some (Except.error e)) ∨
      (∃ v' p' st', has_circular_dependency m fuel repo hV hP = some (false, v', p') ∧
        dfs m fuel repo st = some (Except.ok st') ∧ Rel v' p' st') := by
  intro fuel
  induction fuel with
  | zero =>
    intro repo hV hP st _
    exact Or.inl ⟨hcd_zero m repo hV hP, dfs_zero m repo st⟩
  | succ n ih =>
    intro repo hV hP st hRel
    obtain ⟨hiff, hpeq⟩ := hRel
    by_cases h1 : repo ∈ hP
    · have h1' : repo ∈ st.visiting := hpeq ▸ h1
      refine Or.inr (Or.inl ⟨hV, hP ++ [repo],
        "Circular dependency detected involving " ++ repo, ?_, ?_⟩)
      · rw [hcd_succ, if_pos h1]
      · rw [dfs_succ, if_pos h1']
    · have h1' : repo ∉ st.visiting := fun hh => h1 (hpeq ▸ hh)
      by_cases h2 : repo ∈ hV
      · have h2' : repo ∈ st.visited := by
          cases (hiff repo).mp h2 with
          | inl h => exact h
          | inr h => exact absurd h h1'
        refine Or.inr (Or.inr ⟨hV, hP, st, ?_, ?_, hiff, hpeq⟩)
        · rw [hcd_succ, if_neg h1, if_pos h2]
        · rw [dfs_succ, if_neg h1', if_pos h2']
      · have h2' : repo ∉ st.visited := fun hh => h2 ((hiff repo).mpr (Or.inl hh))
        have hvis1 : hinsert st.visiting repo = st.visiting ++ [repo] :=
          hinsert_not_mem h1'
        cases hg : getRepo m repo with
        | none =>
          refine Or.inr (Or.inr ⟨hinsert hV repo, (hP ++ [repo]).dropLast,
            ⟨hinsert st.visited repo, hremove (hinsert st.visiting repo) repo,
              st.result ++ [repo]⟩, ?_, ?_, ?_, ?_⟩)
          · rw [hcd_succ, if_neg h1, if_neg h2, hg]
          · rw [dfs_succ, if_neg h1', if_neg h2', hg]
          · intro y
            rw [mem_hinsert]
            show y ∈ hV ∨ y = repo ↔ y ∈ hinsert st.visited repo ∨
              y ∈ hremove (hinsert st.visiting repo) repo
            rw [mem_hinsert, hvis1, hremove_append_self h1', hiff y]
            tauto
          · show (hP ++ [repo]).dropLast = hremove (hinsert st.visiting repo) repo
            rw [List.dropLast_concat, hvis1, hremove_append_self h1', hpeq]
        | some vi =>
          have hRel1 : Rel (hinsert hV repo) (hP ++ [repo])
              ⟨st.visited, hinsert st.visiting repo, st.result⟩ := by
            constructor
            · intro y
              rw [mem_hinsert]
              show y ∈ hV ∨ y = repo ↔ y ∈ st.visited ∨ y ∈ hinsert st.visiting repo
              rw [mem_hinsert, hiff y]
              tauto
            · show hP ++ [repo] = hinsert st.visiting repo
              rw [hvis1, hpeq]
          rcases hcdLoop_dfsLoop_bisim m n ih vi.requires (hinsert hV repo)
              (hP ++ [repo]) ⟨st.visited, hinsert st.visiting repo, st.result⟩ hRel1 with
            ⟨hh, hd⟩ | ⟨v1, p1, e, hh, hd⟩ | ⟨v1, p1, st2, hh, hd, hRel2⟩
          · refine Or.inl ⟨?_, ?_⟩
            · rw [hcd_succ, if_neg h1, if_neg h2, hg]
              dsimp only
              rw [hh]
            · rw [dfs_succ, if_neg h1', if_neg h2', hg]
              dsimp only
              rw [hd]
          · refine Or.inr (Or.inl ⟨v1, p1, e, ?_, ?_⟩)
            · rw [hcd_succ, if_neg h1, if_neg h2, hg]
              dsimp only
              rw [hh]
            · rw [dfs_succ, if_neg h1', if_neg h2', hg]
              dsimp only
              rw [hd]
          · have hvis2 : st2.visiting = st.visiting ++ [repo] := by
              have := dfsLoop_visiting_eq (fun r a b hh2 => dfs_visiting_eq m n r a b hh2)
                vi.requires _ st2 hd
              rw [this]
              exact hvis1
            refine Or.inr (Or.inr ⟨v1, p1.dropLast,
              ⟨hinsert st2.visited repo, hremove st2.visiting repo,
                st2.result ++ [repo]⟩, ?_, ?_, ?_, ?_⟩)
            · rw [hcd_succ, if_neg h1, if_neg h2, hg]
              dsimp only
              rw [hh]
            · rw [dfs_succ, if_neg h1', if_neg h2', hg]
              dsimp only
              rw [hd]
            · intro y
              have := hRel2.1 y
              rw [hvis2] at this
              show y ∈ v1 ↔ y ∈ hinsert st2.visited repo ∨ y ∈ hremove st2.visiting repo
              rw [mem_hinsert, hvis2, hremove_append_self h1', this]
              simp only [List.mem_append, List.mem_singleton]
              tauto
            · show p1.dropLast = hremove st2.visiting repo
              rw [hRel2.2, hvis2, List.dropLast_concat, hremove_append_self h1']

/-! ### `detect_circular_dependencies` is sound and complete -/

theorem Rel_nil : Rel [] [] ⟨[], [], []⟩ :=
  ⟨fun y => by simp, rfl⟩

/-- Every `Some` answer of `detect_circular_dependencies` joins an
edge chain whose last entry repeats an earlier entry. -/
theorem detectAux_some_sound (m : VersionsManifest) :
    ∀ ks s, detectAux m ks = some (some s) →
      ∃ p', s = joinSep " -> " p' ∧ EChain m p' ∧
        ∃ f x w2, p' = f ++ x :: (w2 ++ [x]) := by
  intro ks
  induction ks with
  | nil => intro s h; simp only [detectAux] at h; cases h
  | cons repo rest ih =>
    intro s h
    simp only [detectAux] at h
    cases hr : has_circular_dependency m (fuelBound m) repo [] [] with
    | none => rw [hr] at h; cases h
    | some r =>
      rw [hr] at h
      obtain ⟨b, v', p'⟩ := r
      cases b with
      | true =>
        cases h
        obtain ⟨hch, hshape⟩ := hcd_true_sound m (fuelBound m) repo [] [] v' p' trivial hr
        exact ⟨p', rfl, hch, hshape⟩
      | false => exact ih s h

theorem detect_some_hasCycle {m : VersionsManifest} {s : String}
    (h : detect_circular_dependencies m = some (some s)) : HasCycle m := by
  obtain ⟨p', -, hch, hshape⟩ := detectAux_some_sound m (keys m) s h
  exact shape_hasCycle hch hshape

/-- A `dfs` started fresh at a node of a cycle cannot succeed. -/
theorem dfs_start_ok_no_cycle {m : VersionsManifest} {x : String} {w : List String}
    {fuel : Nat} {st' : DfsSt} (hc : IsCycle m x w)
    (h : dfs m fuel x ⟨[], [], []⟩ = some (Except.ok st')) : False := by
  obtain ⟨hInv', hx, -⟩ := dfs_ok_master m fuel x ⟨[], [], []⟩ st' (Inv_nil m) h
  exact ordProp_no_cycle hInv'.2.2 ((hInv'.1 x).mp hx) hc

theorem detectAux_some_of_cycle {m : VersionsManifest} {x : String} {w : List String}
    (hc : IsCycle m x w) :
    ∀ ks, x ∈ ks → ∃ s, detectAux m ks = some (some s) := by
  intro ks
  induction ks with
  | nil => intro h; cases h
  | cons k rest ih =>
    intro hmem
    cases hr : has_circular_dependency m (fuelBound m) k [] [] with
    | none => exact absurd hr (hcd_ne_none m _ _ _ _ (freeCount_lt_fuelBound m []))
    | some r =>
      obtain ⟨b, v', p'⟩ := r
      cases b with
      | true =>
        refine ⟨joinSep " -> " p', ?_⟩
        simp only [detectAux]
        rw [hr]
      | false =>
        have hkx : k ≠ x := by
          intro he
          subst he
          rcases hcd_dfs_bisim m (fuelBound m) k [] [] ⟨[], [], []⟩ Rel_nil with
            ⟨hh, -⟩ | ⟨v2, p2, e, hh, -⟩ | ⟨v2, p2, st2, hh, hd, -⟩
          · rw [hr] at hh; cases hh
          · rw [hr] at hh; cases hh
          · exact dfs_start_ok_no_cycle hc hd
        have hx : x ∈ rest := by
          cases List.mem_cons.mp hmem with
          | inl he => exact absurd he.symm hkx
          | inr hr2 => exact hr2
        obtain ⟨s, hs⟩ := ih hx
        refine ⟨s, ?_⟩
        simp only [detectAux]
        rw [hr]
        exact hs

/-- `detect_circular_dependencies` answers `Some` exactly on cyclic
manifests. -/
theorem detect_some_iff (m : VersionsManifest) :
    (∃ s, detect_circular_dependencies m = some (some s)) ↔ HasCycle m := by
  constructor
  · rintro ⟨s, hs⟩
    exact detect_some_hasCycle hs
  · rintro ⟨x, w, hc⟩
    exact detectAux_some_of_cycle hc (keys m) (cycle_head_key hc)

theorem detect_none_iff (m : VersionsManifest) :
    detect_circular_dependencies m = some none ↔ ¬ HasCycle m := by
  constructor
  · intro h hc
    obtain ⟨s, hs⟩ := (detect_some_iff m).mpr hc
    rw [h] at hs
    cases hs
  · intro hnc
    cases hd : detect_circular_dependencies m with
    | none => exact absurd hd (by
        have := detect_isSome m
        intro hh
        rw [hh] at this
        cases this)
    | some o =>
      cases o with
      | none => rfl
      | some s => exact absurd (detect_some_hasCycle hd) hnc

/-! ### What a successful `build_order` run guarantees -/

/-- Backbone for the `build_order` success claims: the result has no
duplicates, is topologically ordered, contains every manifest key,
and contains only keys and `requires` names. -/
theorem build_order_ok_master {m : VersionsManifest} {l : List String}
    (h : build_order m = some (Except.ok l)) :
    l.Nodup ∧ OrdProp m l ∧ (∀ k, k ∈ keys m → k ∈ l) ∧
      (∀ y, y ∈ l → y ∈ keys m ∨ DepTarget m y) := by
  obtain ⟨st', hl, hInv', hks, hP⟩ := buildOrderAux_ok m (keys m) ⟨[], [], []⟩ l (Inv_nil m) h
  subst hl
  refine ⟨hInv'.2.1, hInv'.2.2, fun k hk => (hInv'.1 k).mp (hks k hk), ?_⟩
  intro y hy
  have hyv : y ∈ st'.visited := (hInv'.1 y).mpr hy
  cases hP.2.2.2 y hyv with
  | inl hh => cases hh
  | inr hh => exact hh.2

/-! ### Characterizing `validate` -/

theorem validate_eq {m : VersionsManifest} {circ : Option String}
    (h : detect_circular_dependencies m = some circ) :
    validate m = some (if validateErrors m circ = [] then ValidationResult.Valid
      else ValidationResult.Invalid (validateErrors m circ) []) := by
  unfold validate
  rw [h]
  dsimp only
  by_cases he : validateErrors m circ = []
  · rw [if_pos he, he]
    rfl
  · rw [if_neg he]
    have hb : (validateErrors m circ).isEmpty = false := by
      cases hv : validateErrors m circ with
      | nil => exact absurd hv he
      | cons a t => rfl
    rw [hb]
    rfl

theorem entryErrors_eq_nil_iff (m : VersionsManifest) (repo : String) (vi : RepoVersion) :
    entryErrors m repo vi = [] ↔
      (is_valid_semver vi.version = true ∧
       ∀ d, d ∈ vi.requires → containsKey m (depName d) = true) := by
  unfold entryErrors
  constructor
  · intro h
    rw [List.append_eq_nil] at h
    obtain ⟨h1, h2⟩ := h
    constructor
    · cases hsem : is_valid_semver vi.version with
      | true => rfl
      | false => rw [if_neg (by rw [hsem]; exact Bool.false_ne_true)] at h1; cases h1
    · intro d hd
      have hf := List.filterMap_eq_nil_iff.mp h2 d hd
      cases hc : containsKey m (depName d) with
      | true => rfl
      | false =>
        rw [if_neg (by rw [hc]; exact Bool.false_ne_true)] at hf
        cases hf
  · rintro ⟨h1, h2⟩
    rw [if_pos h1, List.nil_append]
    exact List.filterMap_eq_nil_iff.mpr (fun d hd => by rw [if_pos (h2 d hd)])

theorem validateErrors_eq_nil_iff (m : VersionsManifest) (circ : Option String) :
    validateErrors m circ = [] ↔
      ((∀ p, p ∈ m.versions → entryErrors m p.1 p.2 = []) ∧ circ = none) := by
  unfold validateErrors
  rw [List.append_eq_nil, List.flatten_eq_nil_iff]
  constructor
  · rintro ⟨h1, h2⟩
    refine ⟨fun p hp => h1 _ (List.mem_map_of_mem _ hp), ?_⟩
    cases circ with
    | none => rfl
    | some c => cases h2
  · rintro ⟨h1, h2⟩
    subst h2
    exact ⟨fun x hx => by
      obtain ⟨p, hp, hpx⟩ := List.mem_map.mp hx
      rw [← hpx]
      exact h1 p hp, rfl⟩

/-! ### Characterizing `is_valid_semver` -/

theorem is_valid_semver_iff (s : String) :
    is_valid_semver s = true ↔
      ∃ x y z, splitChar '.' s.toList = [x, y, z] ∧
        (parseU32c x).isSome = true ∧ (parseU32c y).isSome = true ∧
        (parseU32c z).isSome = true := by
  unfold is_valid_semver
  by_cases hl : (splitChar '.' s.toList).length = 3
  · obtain ⟨x, y, z, hxyz⟩ := List.length_eq_three.mp hl
    rw [hxyz]
    constructor
    · intro h
      rw [if_neg (by simp)] at h
      simp only [List.all_cons, List.all_nil, Bool.and_true, Bool.and_eq_true] at h
      exact ⟨x, y, z, rfl, h.1, h.2.1, h.2.2⟩
    · rintro ⟨x', y', z', hxyz', h1, h2, h3⟩
      cases hxyz'
      rw [if_neg (by simp)]
      simp only [List.all_cons, List.all_nil, Bool.and_true, Bool.and_eq_true]
      exact ⟨h1, h2, h3⟩
  · rw [if_pos hl]
    constructor
    · intro h; cases h
    · rintro ⟨x, y, z, hxyz, -⟩
      rw [hxyz] at hl
      simp at hl

/-! ### Example manifests -/

/-- Scenario A: `A`, `B` requires `A`, `C` requires `B` and `A`. -/
def exMA : VersionsManifest :=
  ⟨[("A", ⟨"0.1.0", "v0.1.0", none, [], []⟩),
    ("B", ⟨"0.1.0", "v0.1.0", none, ["A"], []⟩),
    ("C", ⟨"0.1.0", "v0.1.0", none, ["B", "A"], []⟩)], none⟩

/-- Scenario B: `A` and `B` require each other. -/
def exM2 : VersionsManifest :=
  ⟨[("A", ⟨"0.1.0", "v0.1.0", none, ["B=0.1.0"], []⟩),
    ("B", ⟨"0.1.0", "v0.1.0", none, ["A=0.1.0"], []⟩)], none⟩

/-- Scenario C: `protocol` requires the undefined `consensus`. -/
def exM4 : VersionsManifest :=
  ⟨[("protocol", ⟨"0.1.0", "v0.1.0", none, ["consensus"], []⟩)], none⟩

/-- A cycle `b → c → b` reached from the non-cycle key `a`. -/
def exM5 : VersionsManifest :=
  ⟨[("a", ⟨"0.1.0", "v0.1.0", none, ["b"], []⟩),
    ("b", ⟨"0.1.0", "v0.1.0", none, ["c"], []⟩),
    ("c", ⟨"0.1.0", "v0.1.0", none, ["b"], []⟩)], none⟩

/-! ### The claims -/

/-- C1: for every acyclic manifest, `build_order` succeeds, and for
every edge `repo → dependency` induced by a `requires` entry whose
name portion is a key of `versions`, the returned sequence places the
dependency at a strictly earlier index than `repo`. -/
theorem claim_C1 (m : VersionsManifest) (hac : ¬ HasCycle m) :
    (∃ l, build_order m = some (Except.ok l)) ∧
    ∀ l, build_order m = some (Except.ok l) →
      ∀ repo vi, getRepo m repo = some vi → ∀ d, d ∈ vi.requires →
        containsKey m (depName d) = true →
        depName d ∈ l ∧ repo ∈ l ∧ pos l (depName d) < pos l repo := by
  constructor
  · cases hb : build_order m with
    | none => exact absurd hb (by
        have := build_order_isSome m
        intro hh
        rw [hh] at this
        cases this)
    | some r =>
      cases r with
      | error e => exact absurd (build_order_error_to_cycle hb).1 hac
      | ok l => exact ⟨l, rfl⟩
  · intro l hb repo vi hg d hd _
    obtain ⟨-, hord, hkeys, -⟩ := build_order_ok_master hb
    have hrepo : repo ∈ l := hkeys repo (getRepo_mem_keys hg)
    obtain ⟨hmem, hpos⟩ := hord repo hrepo vi hg d hd
    exact ⟨hmem, hrepo, hpos⟩

/-- Witness for C1 at the Scenario A manifest. -/
theorem claim_C1_witness :
    depName "A" ∈ (["A", "B", "C"] : List String) ∧
    "B" ∈ (["A", "B", "C"] : List String) ∧
    pos ["A", "B", "C"] (depName "A") < pos ["A", "B", "C"] "B" :=
  (claim_C1 exMA (@build_order_ok_no_cycle exMA ["A", "B", "C"] (by decide))).2 ["A", "B", "C"] (by decide)
    "B" ⟨"0.1.0", "v0.1.0", none, ["A"], []⟩ (by decide) "A" (by decide) (by decide)

/-- C2: `detect_circular_dependencies` answers `Some` iff the
`requires` edge graph has a directed cycle, and `None` exactly when
it is acyclic. -/
theorem claim_C2 (m : VersionsManifest) :
    ((∃ s, detect_circular_dependencies m = some (some s)) ↔ HasCycle m) ∧
    (detect_circular_dependencies m = some none ↔ ¬ HasCycle m) :=
  ⟨detect_some_iff m, detect_none_iff m⟩

/-- Witness for C2 at the two-cycle manifest. -/
theorem claim_C2_witness : ∃ s, detect_circular_dependencies exM2 = some (some s) :=
  (claim_C2 exM2).1.mpr ⟨"A", ["B"], by decide⟩

/-- C3: `build_order` returns an error iff the manifest is cyclic;
the error message names a repository that lies on a cycle, and no
ordering is returned. -/
theorem claim_C3 (m : VersionsManifest) :
    ((∃ e, build_order m = some (Except.error e)) ↔ HasCycle m) ∧
    (∀ e, build_order m = some (Except.error e) →
      ∃ repo w, e = "Circular dependency detected involving " ++ repo ∧
        IsCycle m repo w) := by
  constructor
  · constructor
    · rintro ⟨e, he⟩
      exact (build_order_error_to_cycle he).1
    · exact hasCycle_build_order_error
  · intro e he
    exact (build_order_error_to_cycle he).2

/-- Witness for C3 at the two-cycle manifest. -/
theorem claim_C3_witness : ∃ e, build_order exM2 = some (Except.error e) :=
  (claim_C3 exM2).1.mpr ⟨"A", ["B"], by decide⟩

/-- Counterexample to C4: on `{protocol: requires [consensus]}` with
`consensus` undefined, `build_order` does not skip the dangling name;
it returns `["consensus", "protocol"]`, not `["protocol"]`. -/
theorem claim_C4_counterexample :
    build_order exM4 = some (Except.ok ["consensus", "protocol"]) ∧
    (["consensus", "protocol"] : List String) ≠ ["protocol"] :=
  ⟨by decide, by decide⟩

/-- C4 amended: `build_order` still succeeds on a dangling reference
(no failure), but the dangling name is included in the returned
sequence — the scenario manifest yields `["consensus", "protocol"]`;
in general a `dfs` on a name absent from `versions` returns `Ok` and
the name ends up in `result`. -/
theorem claim_C4 :
    build_order exM4 = some (Except.ok ["consensus", "protocol"]) ∧
    (∀ m fuel repo st, Inv m st → getRepo m repo = none → repo ∉ st.visiting →
      ∃ st', dfs m (fuel + 1) repo st = some (Except.ok st') ∧ repo ∈ st'.result) := by
  refine ⟨by decide, ?_⟩
  intro m fuel repo st hInv hg hnv
  rw [dfs_succ, if_neg hnv]
  by_cases h2 : repo ∈ st.visited
  · rw [if_pos h2]
    exact ⟨st, rfl, (hInv.1 repo).mp h2⟩
  · rw [if_neg h2, hg]
    exact ⟨⟨hinsert st.visited repo, hremove (hinsert st.visiting repo) repo,
      st.result ++ [repo]⟩, rfl,
      List.mem_append_right _ (List.mem_singleton_self repo)⟩

/-- Witness for the amended C4. -/
theorem claim_C4_witness :
    ∃ st', dfs exM4 1 "consensus" ⟨[], [], []⟩ = some (Except.ok st') ∧
      "consensus" ∈ st'.result :=
  claim_C4.2 exM4 0 "consensus" ⟨[], [], []⟩ (Inv_nil exM4) (by decide) (by decide)

/-- Counterexample to C5: on `a → b → c → b` the detector (started
at the non-cycle key `a`) returns the path `a, b, c, b`, whose first
entry `a` differs from its last entry `b`. -/
theorem claim_C5_counterexample :
    IsCycle exM5 "b" ["c"] ∧
    has_circular_dependency exM5 (fuelBound exM5) "a" [] [] =
      some (true, ["a", "b", "c"], ["a", "b", "c", "b"]) ∧
    detect_circular_dependencies exM5 = some (some "a -> b -> c -> b") ∧
    joinSep " -> " ["a", "b", "c", "b"] = "a -> b -> c -> b" ∧
    (["a", "b", "c", "b"] : List String).head? ≠
      (["a", "b", "c", "b"] : List String).getLast? :=
  ⟨by decide, by decide, by decide, by decide, by decide⟩

/-- C5 amended: the path behind every `Some` answer of
`detect_circular_dependencies` is an `" -> "`-joined sequence whose
LAST entry repeats one of its earlier entries, the segment from that
earlier occurrence forming a directed cycle (a non-cyclic prefix from
the walk's start may precede it); the Validator's single
circular-dependency error embeds the same arrow-joined text. -/
theorem claim_C5 (m : VersionsManifest) (s : String)
    (h : detect_circular_dependencies m = some (some s)) :
    (∃ f x w, s = joinSep " -> " (f ++ x :: (w ++ [x])) ∧ IsCycle m x w) ∧
    (∀ r, validate m = some r → ∃ errs, r = ValidationResult.Invalid errs [] ∧
      ("Circular dependency detected: " ++ s) ∈ errs) := by
  constructor
  · obtain ⟨p', hs, hch, f, x, w2, hshape⟩ := detectAux_some_sound m (keys m) s h
    refine ⟨f, x, w2, by rw [hs, hshape], ?_⟩
    rw [hshape] at hch
    exact echain_suffix f _ hch
  · intro r hr
    have hv := validate_eq h
    have hmem : ("Circular dependency detected: " ++ s) ∈ validateErrors m (some s) := by
      unfold validateErrors
      exact List.mem_append_right _ (by simp)
    have hne : validateErrors m (some s) ≠ [] := by
      intro hh
      rw [hh] at hmem
      cases hmem
    rw [if_neg hne] at hv
    rw [hr] at hv
    cases hv
    exact ⟨validateErrors m (some s), rfl, hmem⟩

/-- Witness for the amended C5 at the two-cycle manifest. -/
theorem claim_C5_witness :
    (∃ f x w, "A -> B -> A" = joinSep " -> " (f ++ x :: (w ++ [x])) ∧ IsCycle exM2 x w) ∧
    (∀ r, validate exM2 = some r → ∃ errs, r = ValidationResult.Invalid errs [] ∧
      ("Circular dependency detected: " ++ "A -> B -> A") ∈ errs) :=
  claim_C5 exM2 "A -> B -> A" (by decide)

/-- C6: `validate` reports `Invalid` iff some entry has a malformed
version, some `requires` name is undefined, or the edge graph has a
cycle — the three checks accumulate independently. -/
theorem claim_C6 (m : VersionsManifest) (r : ValidationResult) (h : validate m = some r) :
    (∃ e w, r = ValidationResult.Invalid e w) ↔
      ((∃ p, p ∈ m.versions ∧ is_valid_semver p.2.version = false) ∨
       (∃ p d, p ∈ m.versions ∧ d ∈ p.2.requires ∧ containsKey m (depName d) = false) ∨
       HasCycle m) := by
  cases hd : detect_circular_dependencies m with
  | none => exact absurd hd (by
      have := detect_isSome m
      intro hh
      rw [hh] at this
      cases this)
  | some circ =>
    have hv := validate_eq hd
    rw [h] at hv
    cases hv
    by_cases he : validateErrors m circ = []
    · rw [if_pos he]
      obtain ⟨hall, hcirc⟩ := (validateErrors_eq_nil_iff m circ).mp he
      constructor
      · rintro ⟨e, w, hew⟩
        cases hew
      · rintro (⟨p, hp, hsem⟩ | ⟨p, d, hp, hd2, hck⟩ | hcy)
        · have := ((entryErrors_eq_nil_iff m p.1 p.2).mp (hall p hp)).1
          rw [this] at hsem
          cases hsem
        · have := ((entryErrors_eq_nil_iff m p.1 p.2).mp (hall p hp)).2 d hd2
          rw [this] at hck
          cases hck
        · subst hcirc
          exact absurd hcy ((detect_none_iff m).mp hd)
    · rw [if_neg he]
      constructor
      · intro _
        by_cases hbase : (m.versions.map (fun p => entryErrors m p.1 p.2)).flatten = []
        · have hcne : circ ≠ none := by
            intro hcn
            refine he ((validateErrors_eq_nil_iff m circ).mpr ⟨?_, hcn⟩)
            intro p hp
            exact List.flatten_eq_nil_iff.mp hbase _ (List.mem_map_of_mem _ hp)
          cases hcs : circ with
          | none => exact absurd hcs hcne
          | some c =>
            refine Or.inr (Or.inr ?_)
            rw [hcs] at hd
            exact detect_some_hasCycle hd
        · have hex : ∃ p, p ∈ m.versions ∧ entryErrors m p.1 p.2 ≠ [] := by
            by_contra hno
            push_neg at hno
            refine hbase (List.flatten_eq_nil_iff.mpr ?_)
            intro x hx
            obtain ⟨p, hp, hpx⟩ := List.mem_map.mp hx
            rw [← hpx]
            exact hno p hp
          obtain ⟨p, hp, hpe⟩ := hex
          by_cases hsem : is_valid_semver p.2.version = true
          · have hdm : ∃ d, d ∈ p.2.requires ∧ containsKey m (depName d) = false := by
              by_contra hno
              push_neg at hno
              refine hpe ((entryErrors_eq_nil_iff m p.1 p.2).mpr ⟨hsem, ?_⟩)
              intro d hd2
              cases hck : containsKey m (depName d) with
              | true => rfl
              | false => exact absurd hck (hno d hd2)
            obtain ⟨d, hd2, hck⟩ := hdm
            exact Or.inr (Or.inl ⟨p, d, hp, hd2, hck⟩)
          · refine Or.inl ⟨p, hp, ?_⟩
            cases hsv : is_valid_semver p.2.version with
            | true => exact absurd hsv hsem
            | false => rfl
      · intro _
        exact ⟨validateErrors m circ, [], rfl⟩

/-- Witness for C6 at the dangling-dependency manifest. -/
theorem claim_C6_witness :
    (∃ p, p ∈ exM4.versions ∧ is_valid_semver p.2.version = false) ∨
    (∃ p d, p ∈ exM4.versions ∧ d ∈ p.2.requires ∧ containsKey exM4 (depName d) = false) ∨
    HasCycle exM4 :=
  (claim_C6 exM4 (ValidationResult.Invalid
    ["Repository 'protocol' requires 'consensus' which is not defined"] [])
    (by decide)).mp ⟨_, _, rfl⟩

/-- C7: the version-format check accepts exactly the strings that
split on `'.'` into exactly three parts, each parseable as a `u32`;
the six boundary examples behave as stated. -/
theorem claim_C7 :
    (∀ s, is_valid_semver s = true ↔
      ∃ x y z, splitChar '.' s.toList = [x, y, z] ∧
        (parseU32c x).isSome = true ∧ (parseU32c y).isSome = true ∧
        (parseU32c z).isSome = true) ∧
    is_valid_semver "0.1.0" = true ∧ is_valid_semver "1.2.3" = true ∧
    is_valid_semver "10.20.30" = true ∧ is_valid_semver "1.2" = false ∧
    is_valid_semver "v1.2.3" = false ∧ is_valid_semver "1.2.3.4" = false :=
  ⟨is_valid_semver_iff, by decide, by decide, by decide, by decide, by decide, by decide⟩

/-- Witness for C7. -/
theorem claim_C7_witness :
    ∃ x y z, splitChar '.' ("1.2.3").toList = [x, y, z] ∧
      (parseU32c x).isSome = true ∧ (parseU32c y).isSome = true ∧
      (parseU32c z).isSome = true :=
  (claim_C7.1 "1.2.3").mp (by decide)

/-- C8: `validate` never returns `ValidWithWarnings`, and the
warnings attached to an `Invalid` result are always empty. -/
theorem claim_C8 (m : VersionsManifest) (r : ValidationResult) (h : validate m = some r) :
    (∀ w, r ≠ ValidationResult.ValidWithWarnings w) ∧
    (r = ValidationResult.Valid ∨ ∃ e, r = ValidationResult.Invalid e []) := by
  cases hd : detect_circular_dependencies m with
  | none => exact absurd hd (by
      have := detect_isSome m
      intro hh
      rw [hh] at this
      cases this)
  | some circ =>
    have hv := validate_eq hd
    rw [h] at hv
    cases hv
    by_cases he : validateErrors m circ = []
    · rw [if_pos he]
      exact ⟨fun w hw => ValidationResult.noConfusion hw, Or.inl rfl⟩
    · rw [if_neg he]
      exact ⟨fun w hw => ValidationResult.noConfusion hw,
        Or.inr ⟨validateErrors m circ, rfl⟩⟩

/-- Witness for C8 at the Scenario A manifest. -/
theorem claim_C8_witness :
    (∀ w, ValidationResult.Valid ≠ ValidationResult.ValidWithWarnings w) ∧
    (ValidationResult.Valid = ValidationResult.Valid ∨
      ∃ e, ValidationResult.Valid = ValidationResult.Invalid e []) :=
  claim_C8 exMA ValidationResult.Valid (by decide)

/-- C9: when every `requires` name is a key and `build_order`
succeeds, the returned sequence is a permutation of the key set. -/
theorem claim_C9 (m : VersionsManifest) (l : List String) (hnd : (keys m).Nodup)
    (hdeps : ∀ p, p ∈ m.versions → ∀ d, d ∈ p.2.requires →
      containsKey m (depName d) = true)
    (h : build_order m = some (Except.ok l)) : l.Perm (keys m) := by
  obtain ⟨hl_nd, -, hkeys, hprov⟩ := build_order_ok_master h
  refine (List.perm_ext_iff_of_nodup hl_nd hnd).mpr (fun y => ?_)
  constructor
  · intro hy
    cases hprov y hy with
    | inl hk => exact hk
    | inr hdt =>
      obtain ⟨p, hp, d, hd, hdn⟩ := hdt
      have hc := hdeps p hp d hd
      rw [hdn] at hc
      unfold containsKey at hc
      obtain ⟨vi, hvi⟩ := Option.isSome_iff_exists.mp hc
      exact getRepo_mem_keys hvi
  · exact fun hy => hkeys y hy

/-- Witness for C9 at the Scenario A manifest. -/
theorem claim_C9_witness : (["A", "B", "C"] : List String).Perm (keys exMA) :=
  claim_C9 exMA ["A", "B", "C"] (by decide) (by decide) (by decide)

/-- C10: on every finite manifest — cyclic, self-referential or
dangling included — `detect_circular_dependencies`, `validate` and
`build_order` all terminate (the chosen fuel never runs out). -/
theorem claim_C10 (m : VersionsManifest) :
    (detect_circular_dependencies m).isSome ∧ (validate m).isSome ∧
      (build_order m).isSome :=
  ⟨detect_isSome m, validate_isSome m, build_order_isSome m⟩

end BlvmVersions
